import Mathlib

/-!
Verification of the near-duplicate clustering core of
`scripts/find_near_duplicates.py`.

The embedding below mirrors the source:

* `popCount` / `hamming` embed `hamming(a, b) = (a ^ b).bit_count()` (line 69).
* `ahashBits` embeds the bit-packing loop of `ahash_pillow` (lines 31-35).
  The source computes `avg = sum(pixels) / 64.0` in floating point; since
  `sum(pixels) < 2^14`, the division by 64 is exact in binary floating point,
  so the comparison `v > avg` is exactly the integer comparison
  `64 * v > sum(pixels)` used here.
* `DSU`, `findAux`/`find`, `union` embed the `DSU` class (lines 73-92):
  `find` follows parent links with path halving
  (`self.p[x] = self.p[self.p[x]]; x = self.p[x]`), `union` is union by rank.
  The source's `while` loop is modelled with fuel `n`; `find_terminates_root`
  proves that this fuel always reaches a root on a well-formed state, which
  is exactly the termination of the source loop.
* `simPairs`/`buildDSU` embed the O(n^2) comparison loop (lines 146-156):
  the loop reads only the immutable `hashes` list, so it equals folding
  `union` over the pre-computed list of within-threshold pairs in loop order.
* `collectAux`/`collectComps` embed the component collection (lines 159-164)
  including the in-loop mutation of the DSU by `find`; `addToComp` is
  `comps.setdefault(root, []).append(idx)` for an insertion-ordered dict.
* `groupsOf`/`groupsSorted`/`resolveGroup` embed lines 166-167 and 187-199.
* `hashLoop` embeds the hashing loop (lines 129-139) over the outcome of the
  external extraction (a pixel list on success, an error string on failure).
* `mode_to_threshold`/`mainModel` embed lines 95-102 and the threshold
  validation at lines 121-124.
-/

namespace NearDup

/-- Binary-digit recursion for the population count, with explicit fuel so
that it computes by structural recursion (fuel `n` always suffices since the
argument at least halves each step). -/
def popCountAux : Nat → Nat → Nat
  | 0, _ => 0
  | fuel + 1, n => if n = 0 then 0 else popCountAux fuel (n / 2) + n % 2

/-- Number of set bits of a natural number; embeds Python `int.bit_count()`
for the non-negative values it is applied to. -/
def popCount (n : Nat) : Nat := popCountAux n n

/-- Embeds `hamming(a, b) = (a ^ b).bit_count()` (source line 69-70). -/
def hamming (a b : Nat) : Nat := popCount (a ^^^ b)

/-- MSB-first packing of a list of bits: `bits = (bits << 1) | b` repeatedly.
Since the low bit of `bits << 1` is clear, `(bits << 1) | b = 2 * bits + b`. -/
def packBits (l : List Bool) : Nat :=
  l.foldl (fun bits b => 2 * bits + (if b then 1 else 0)) 0

/-- Embeds the packing loop of `ahash_pillow` (lines 31-35):
`bits = (bits << 1) | (1 if v > avg else 0)` over the pixels in order,
with the exact-rational form of the float comparison (see header). -/
def ahashBits (pixels : List Nat) : Nat :=
  pixels.foldl (fun bits v => 2 * bits + (if 64 * v > pixels.sum then 1 else 0)) 0

/-- Embeds the `DSU` state: parent list `p` and rank list `r` (lines 74-76). -/
structure DSU where
  p : List Nat
  r : List Nat

/-- `self.p[x]`, totalised: an out-of-range index is its own parent. -/
def parentOf (p : List Nat) (x : Nat) : Nat := p.getD x x

/-- `self.r[x]`, totalised with rank 0 out of range. -/
def rankOf (r : List Nat) (x : Nat) : Nat := r.getD x 0

/-- A root of the parent forest: a node that is its own parent. -/
def isRoot (p : List Nat) (x : Nat) : Prop := parentOf p x = x

/-- `k` steps along parent links. -/
def chain (p : List Nat) : Nat → Nat → Nat
  | 0, x => x
  | k + 1, x => chain p k (parentOf p x)

/-- `z` is the root reached from `x` by following parent links. -/
def RootedAt (p : List Nat) (x z : Nat) : Prop :=
  ∃ k, chain p k x = z ∧ isRoot p z

/-- The root reached from `x` after `length p` steps (enough steps on any
well-formed state, as proved below). -/
def rootOf (p : List Nat) (x : Nat) : Nat := chain p p.length x

/-- Two indices lie in the same set of the partition encoded by `p`. -/
def sameSetP (p : List Nat) (x y : Nat) : Prop := rootOf p x = rootOf p y

/-- Well-formedness of a DSU state, as established by `__init__` and
preserved by `find` and `union`: ranks and parents are index-aligned,
parents stay in range, and rank strictly increases along parent links
(which makes the parent graph a forest). -/
def WF (d : DSU) : Prop :=
  d.r.length = d.p.length ∧
  (∀ x, x < d.p.length → parentOf d.p x < d.p.length) ∧
  (∀ x, x < d.p.length → parentOf d.p x ≠ x →
    rankOf d.r x < rankOf d.r (parentOf d.p x))

/-- Embeds the body of `DSU.find` (lines 78-82): while `p[x] != x`,
halve the path (`p[x] = p[p[x]]`) and step to the new parent.  The fuel
argument bounds the number of iterations of the source's `while` loop. -/
def findAux : Nat → DSU → Nat → DSU × Nat
  | 0, d, x => (d, x)
  | fuel + 1, d, x =>
    if parentOf d.p x = x then (d, x)
    else
      findAux fuel ⟨d.p.set x (parentOf d.p (parentOf d.p x)), d.r⟩
        (parentOf d.p (parentOf d.p x))

/-- `DSU.find` with fuel `n`, which suffices on any well-formed state. -/
def find (d : DSU) (x : Nat) : DSU × Nat := findAux d.p.length d x

/-- The root-linking step of `DSU.union` (lines 86-92), on the state after
the two `find` calls: if the roots are equal do nothing, else attach the
lower-rank root under the higher-rank root and bump the rank on ties. -/
def linkDSU (d2 : DSU) (ra rb : Nat) : DSU :=
  if ra = rb then d2
  else
    let u := if rankOf d2.r ra < rankOf d2.r rb then rb else ra
    let v := if rankOf d2.r ra < rankOf d2.r rb then ra else rb
    let d3 : DSU := ⟨d2.p.set v u, d2.r⟩
    if rankOf d3.r u = rankOf d3.r v then ⟨d3.p, d3.r.set u (rankOf d3.r u + 1)⟩
    else d3

/-- Embeds `DSU.union` (lines 84-92): find both roots (each `find` mutates
the state), then link them. -/
def union (d : DSU) (a b : Nat) : DSU :=
  let fa := find d a
  let fb := find fa.1 b
  linkDSU fb.1 fa.2 fb.2

/-- Embeds `DSU.__init__(n)`: `p = list(range(n))`, `r = [0] * n`. -/
def initDSU (n : Nat) : DSU := ⟨List.range n, List.replicate n 0⟩

/-- Applies `union` for each pair of a list in order. -/
def runUnions (d : DSU) : List (Nat × Nat) → DSU
  | [] => d
  | pr :: rest => runUnions (union d pr.1 pr.2) rest

/-- Inner loop `for j in range(i + 1, n)` of the comparison pass
(lines 150-156), as the list of pairs on which `union` is called. -/
def simPairsInner (hashes : List Int) (thr : Nat) (i : Nat) : List (Nat × Nat) :=
  (List.range' (i + 1) (hashes.length - (i + 1))).filterMap (fun j =>
    if hashes.getD j 0 < 0 then none
    else if hamming (hashes.getD i 0).toNat (hashes.getD j 0).toNat ≤ thr then
      some (i, j)
    else none)

/-- Outer loop `for i in range(n)` of the comparison pass (lines 146-156):
the sequence of pairs on which `union` is called, in loop order. -/
def simPairs (hashes : List Int) (thr : Nat) : List (Nat × Nat) :=
  (List.range hashes.length).flatMap (fun i =>
    if hashes.getD i 0 < 0 then [] else simPairsInner hashes thr i)

/-- The DSU after the comparison pass: `dsu = DSU(n)` followed by the double
loop of `union` calls (lines 143-156).  The loop reads only the immutable
`hashes` list, so it is the fold of `union` over `simPairs` in loop order. -/
def buildDSU (hashes : List Int) (thr : Nat) : DSU :=
  runUnions (initDSU hashes.length) (simPairs hashes thr)

/-- Embeds `comps.setdefault(root, []).append(idx)` on an insertion-ordered
association list (Python dicts preserve insertion order). -/
def addToComp : List (Nat × List Nat) → Nat → Nat → List (Nat × List Nat)
  | [], key, idx => [(key, [idx])]
  | (k, l) :: rest, key, idx =>
    if k = key then (k, l ++ [idx]) :: rest
    else (k, l) :: addToComp rest key idx

/-- Embeds the component-collection loop (lines 159-164): for each index in
order, skip failed hashes, call `find` (which mutates the DSU), and append
the index under its root. -/
def collectAux (hashes : List Int) :
    List Nat → DSU → List (Nat × List Nat) → DSU × List (Nat × List Nat)
  | [], d, c => (d, c)
  | idx :: rest, d, c =>
    if hashes.getD idx 0 < 0 then collectAux hashes rest d c
    else
      let fr := find d idx
      collectAux hashes rest fr.1 (addToComp c fr.2 idx)

/-- The collected components (lines 159-164). -/
def collectComps (hashes : List Int) (thr : Nat) : DSU × List (Nat × List Nat) :=
  collectAux hashes (List.range hashes.length) (buildDSU hashes thr) []

/-- Lookup of a key in the component association list (first match). -/
def lookupComp : List (Nat × List Nat) → Nat → List Nat
  | [], _ => []
  | (k, l) :: rest, key => if k = key then l else lookupComp rest key

/-- The keys of the component association list. -/
def compKeys (c : List (Nat × List Nat)) : List Nat := c.map Prod.fst

/-- Folding `addToComp` over a list of (key, index) insertions. -/
def addAll (c : List (Nat × List Nat)) (l : List (Nat × Nat)) :
    List (Nat × List Nat) :=
  l.foldl (fun c pr => addToComp c pr.1 pr.2) c

/-- The (key, index) insertions performed by the collection loop on a fixed
partition `p`: the valid indices in order, each keyed by its root. -/
def compInserts (p : List Nat) (hashes : List Int) (idxs : List Nat) :
    List (Nat × Nat) :=
  (idxs.filter (fun i => !decide (hashes.getD i 0 < 0))).map
    (fun i => (rootOf p i, i))

/-- The indices with a valid (non-failed) hash, in order. -/
def validIdx (hashes : List Int) : List Nat :=
  (List.range hashes.length).filter (fun i => !decide (hashes.getD i 0 < 0))

/-- Embeds `groups = [sorted(idxs) for idxs in comps.values() if len(idxs) > 1]`
(line 166); Python `sorted` is embedded as an insertion sort, which produces
the same ascending list. -/
def groupsOf (hashes : List Int) (thr : Nat) : List (List Nat) :=
  (((collectComps hashes thr).2.map Prod.snd).filter
      (fun l => decide (1 < l.length))).map
    (fun l => l.insertionSort (fun a b => a ≤ b))

/-- Strict lexicographic comparison of code-point lists: embeds Python's
string `<`, written so that it evaluates in the kernel. -/
def charListLt : List Char → List Char → Bool
  | [], [] => false
  | [], _ :: _ => true
  | _ :: _, [] => false
  | a :: as, b :: bs => if a < b then true else if a = b then charListLt as bs else false

/-- Lexicographic order on code-point lists: embeds Python's string `<=`. -/
def charListLe : List Char → List Char → Bool
  | [], _ => true
  | _ :: _, [] => false
  | a :: as, b :: bs => if a < b then true else if a = b then charListLe as bs else false

/-- Python string `<` (lexicographic by code point). -/
def strLt (a b : String) : Bool := charListLt a.data b.data

/-- Python string `<=` (lexicographic by code point). -/
def strLe (a b : String) : Bool := charListLe a.data b.data

/-- Lexicographic comparison of path-string lists, embedding Python's
list comparison used in the sort key of line 167. -/
def strListLe : List String → List String → Bool
  | [], _ => true
  | _ :: _, [] => false
  | a :: as, b :: bs => if strLt a b then true else if a = b then strListLe as bs else false

/-- The sort key ordering of line 167:
`(len(g), [str(files[i]) for i in g])` compared as Python tuples. -/
def groupKeyLe (paths : List String) (g1 g2 : List Nat) : Bool :=
  if g1.length < g2.length then true
  else if g1.length = g2.length then
    strListLe (g1.map (fun i => paths.getD i ""))
      (g2.map (fun i => paths.getD i ""))
  else false

/-- The groups after the deterministic report sort of line 167. -/
def groupsSorted (paths : List String) (hashes : List Int) (thr : Nat) :
    List (List Nat) :=
  (groupsOf hashes thr).insertionSort (fun g1 g2 => groupKeyLe paths g1 g2 = true)

/-- A resolved group: the proposed keep path and the delete candidates. -/
structure Resolved where
  keep : String
  dupes : List String

/-- Embeds lines 188-192: sort the member paths lexicographically
(`sorted(paths, key=str)`), keep the first, mark the rest as delete
candidates. -/
def resolveGroup (paths : List String) (g : List Nat) : Resolved :=
  let ps := (g.map (fun i => paths.getD i "")).insertionSort
    (fun a b => strLe a b = true)
  { keep := ps.headD "", dupes := ps.tail }

/-- The resolved groups of the run, in report order (lines 187-199). -/
def resolvedGroups (paths : List String) (hashes : List Int) (thr : Nat) :
    List Resolved :=
  (groupsSorted paths hashes thr).map (resolveGroup paths)

/-- The (sorted) group at threshold `thr` that contains item `i`: the
component list of `i`'s root. -/
def groupAt (hashes : List Int) (thr : Nat) (i : Nat) : List Nat :=
  (lookupComp (collectComps hashes thr).2
      (rootOf (buildDSU hashes thr).p i)).insertionSort (fun a b => a ≤ b)

/-- Embeds the hashing loop (lines 129-139) over the outcome of the external
extraction: success contributes `ahash` of the pixels, failure contributes
the sentinel `-1` and a failure record. -/
def hashLoop : List (String × Except String (List Nat)) →
    List Int × List (String × String)
  | [] => ([], [])
  | (_, Except.ok pix) :: rest =>
    let res := hashLoop rest
    ((ahashBits pix : Int) :: res.1, res.2)
  | (p, Except.error e) :: rest =>
    let res := hashLoop rest
    ((-1 : Int) :: res.1, (p, e) :: res.2)

/-- Whether an extraction outcome is a failure (the `except` branch of the
hashing loop). -/
def isFailure : Except String (List Nat) → Bool
  | Except.ok _ => false
  | Except.error _ => true

/-- Embeds Python `str.lower()` on the ASCII mode strings, written over the
character list so that it evaluates in the kernel. -/
def strLower (s : String) : String := ⟨s.data.map Char.toLower⟩

/-- Embeds `mode_to_threshold` (lines 95-102). -/
def mode_to_threshold (mode : String) : Int :=
  let m := strLower mode
  if m = "conservative" ∨ m = "c" then 5
  else if m = "aggressive" ∨ m = "a" then 16
  else 10

/-- The run report handed to the external writers. -/
structure Report where
  threshold : Int
  groups : List Resolved
  failures : List (String × String)

/-- Embeds the order of operations of `main` (lines 121-199): compute the
effective threshold (explicit override, else mode mapping), reject it with
exit code 2 before any hashing or clustering work if it is outside [0, 64],
otherwise hash, cluster and resolve. -/
def mainModel (inputs : List (String × Except String (List Nat)))
    (override : Option Int) (mode : String) : Except Nat Report :=
  let thr := override.getD (mode_to_threshold mode)
  if thr < 0 ∨ 64 < thr then Except.error 2
  else
    let hs := hashLoop inputs
    Except.ok
      { threshold := thr,
        groups := resolvedGroups (inputs.map Prod.fst) hs.1 thr.toNat,
        failures := hs.2 }

/-! ### Hamming distance -/

theorem popCountAux_zero : ∀ fuel, popCountAux fuel 0 = 0 := by
  intro fuel
  cases fuel with
  | zero => rfl
  | succ f => simp [popCountAux]

theorem popCountAux_congr : ∀ (k f1 f2 : Nat), k ≤ f1 → k ≤ f2 →
    popCountAux f1 k = popCountAux f2 k := by
  intro k
  induction k using Nat.strong_induction_on with
  | _ k ih =>
    intro f1 f2 h1 h2
    rcases f1 with _ | g1
    · have hk : k = 0 := by omega
      rw [hk, popCountAux_zero, popCountAux_zero]
    · rcases f2 with _ | g2
      · have hk : k = 0 := by omega
        rw [hk, popCountAux_zero, popCountAux_zero]
      · by_cases hk : k = 0
        · rw [hk, popCountAux_zero, popCountAux_zero]
        · have hlt : k / 2 < k := Nat.div_lt_self (Nat.pos_of_ne_zero hk) one_lt_two
          have he1 : popCountAux (g1 + 1) k = popCountAux g1 (k / 2) + k % 2 := by
            simp only [popCountAux]
            rw [if_neg hk]
          have he2 : popCountAux (g2 + 1) k = popCountAux g2 (k / 2) + k % 2 := by
            simp only [popCountAux]
            rw [if_neg hk]
          rw [he1, he2, ih (k / 2) hlt g1 g2 (by omega) (by omega)]

theorem popCount_zero : popCount 0 = 0 := rfl

theorem popCount_ne_zero (n : Nat) (h : n ≠ 0) :
    popCount n = popCount (n / 2) + n % 2 := by
  obtain ⟨m, rfl⟩ : ∃ m, n = m + 1 := ⟨n - 1, by omega⟩
  have h1 : popCount (m + 1) = popCountAux m ((m + 1) / 2) + (m + 1) % 2 := by
    show popCountAux (m + 1) (m + 1) = _
    simp only [popCountAux]
    rw [if_neg h]
  rw [h1]
  congr 1
  exact popCountAux_congr ((m + 1) / 2) m ((m + 1) / 2) (by omega) (le_refl _)

theorem popCount_eq_zero (n : Nat) : popCount n = 0 ↔ n = 0 := by
  induction n using Nat.strong_induction_on with
  | _ n ih =>
    by_cases h : n = 0
    · subst h; simp [popCount_zero]
    · have hlt : n / 2 < n := Nat.div_lt_self (Nat.pos_of_ne_zero h) one_lt_two
      rw [popCount_ne_zero n h]
      constructor
      · intro he
        have h3 : popCount (n / 2) = 0 := by omega
        have h5 : n / 2 = 0 := (ih (n / 2) hlt).mp h3
        omega
      · intro he; exact absurd he h

theorem popCount_le (k : Nat) : ∀ n, n < 2 ^ k → popCount n ≤ k := by
  induction k with
  | zero =>
    intro n hn
    have : n = 0 := by simpa using hn
    simp [this, popCount_zero]
  | succ k ih =>
    intro n hn
    by_cases h : n = 0
    · simp [h, popCount_zero]
    · rw [popCount_ne_zero n h]
      have h2 : 2 ^ (k + 1) = 2 * 2 ^ k := by ring
      have hdiv : n / 2 < 2 ^ k := by omega
      have := ih (n / 2) hdiv
      omega

/-- C5: Hamming distance is symmetric, zero on equal inputs, and bounded by
64 on 64-bit fingerprints; as a total function on naturals it is pure with
no failure mode. -/
theorem hamming_metric (a b : Nat) (ha : a < 2 ^ 64) (hb : b < 2 ^ 64) :
    hamming a b = hamming b a ∧ hamming a a = 0 ∧ hamming a b ≤ 64 := by
  refine ⟨by rw [hamming, hamming, Nat.xor_comm], ?_, ?_⟩
  · rw [hamming, Nat.xor_self, popCount_zero]
  · exact popCount_le 64 _ (Nat.xor_lt_two_pow ha hb)

theorem hamming_metric_witness :
    hamming 3 5 = hamming 5 3 ∧ hamming 3 3 = 0 ∧ hamming 3 5 ≤ 64 :=
  hamming_metric 3 5 (by decide) (by decide)

theorem hamming_eq_zero (a b : Nat) : hamming a b = 0 ↔ a = b := by
  rw [hamming, popCount_eq_zero, Nat.xor_eq_zero]

/-! ### aHash bit packing -/

theorem packBits_concat (l : List Bool) (b : Bool) :
    packBits (l ++ [b]) = 2 * packBits l + (if b then 1 else 0) := by
  simp [packBits, List.foldl_append]

theorem packBits_lt (l : List Bool) : packBits l < 2 ^ l.length := by
  induction l using List.reverseRecOn with
  | nil => simp [packBits]
  | append_singleton l b ih =>
    rw [packBits_concat]
    have h2 : 2 ^ (l ++ [b]).length = 2 * 2 ^ l.length := by
      simp [List.length_append]; ring
    rw [h2]
    cases b <;> simp <;> omega

theorem packBits_testBit (l : List Bool) :
    ∀ j, j < l.length →
      (packBits l).testBit j = l.getD (l.length - 1 - j) false := by
  induction l using List.reverseRecOn with
  | nil => intro j hj; simp at hj
  | append_singleton l b ih =>
    intro j hj
    rw [packBits_concat]
    match j with
    | 0 =>
      have hb : (2 * packBits l + (if b then 1 else 0)) % 2 = (if b then 1 else 0) := by
        cases b <;> simp <;> omega
      rw [Nat.testBit_zero, hb]
      have hlen : (l ++ [b]).length - 1 - 0 = l.length := by
        simp [List.length_append]
      rw [hlen]
      have : (l ++ [b]).getD l.length false = b := by
        simp [List.getD, List.getElem?_concat_length]
      rw [this]
      cases b <;> simp
    | j + 1 =>
      have hj2 : j < l.length := by
        simp [List.length_append] at hj; omega
      have hdiv : (2 * packBits l + (if b then 1 else 0)) / 2 = packBits l := by
        cases b <;> simp <;> omega
      rw [Nat.testBit_succ, hdiv, ih j hj2]
      have hidx : (l ++ [b]).length - 1 - (j + 1) = l.length - 1 - j := by
        simp only [List.length_append, List.length_cons, List.length_nil]
        omega
      rw [hidx]
      have hidx2 : l.length - 1 - j < l.length := by omega
      rw [List.getD_eq_getElem _ _ hidx2,
        List.getD_eq_getElem _ _ (by simp [List.length_append]; omega),
        List.getElem_append_left hidx2]

theorem ahashBits_eq_packBits (pixels : List Nat) :
    ahashBits pixels =
      packBits (pixels.map (fun v => decide (64 * v > pixels.sum))) := by
  rw [ahashBits, packBits, List.foldl_map]
  congr 1
  funext bits v
  by_cases h : 64 * v > pixels.sum <;> simp [h]

set_option maxRecDepth 20000 in
/-- C6 counterexample: with the standard convention that bit `k` of a value
`m` is `m.testBit k` (the coefficient of `2 ^ k`), the first pixel of the
packing loop lands in bit 63, not bit 0.  Here pixel 0 is strictly brighter
than the mean, yet bit 0 of the fingerprint is clear. -/
theorem ahash_bit_claim_counterexample :
    Nat.testBit (ahashBits (255 :: List.replicate 63 0)) 0 = false ∧
    64 * (255 :: List.replicate 63 0).getD 0 0 > (255 :: List.replicate 63 0).sum := by
  constructor
  · decide
  · decide

/-- C6 amended: for a 64-pixel list, bit `63 - k` of the packed fingerprint
is set iff the pixel at row-major downsample position `k` is strictly
brighter than the mean brightness (pixels are packed MSB first). -/
theorem ahash_bit_encodes_brightness (pixels : List Nat)
    (hlen : pixels.length = 64) (k : Nat) (hk : k < 64) :
    Nat.testBit (ahashBits pixels) (63 - k) =
      decide (64 * pixels.getD k 0 > pixels.sum) := by
  rw [ahashBits_eq_packBits]
  have hmaplen : (pixels.map (fun v => decide (64 * v > pixels.sum))).length = 64 := by
    simp [hlen]
  have hj : 63 - k < (pixels.map (fun v => decide (64 * v > pixels.sum))).length := by
    omega
  rw [packBits_testBit _ _ hj]
  have hidx : (pixels.map (fun v => decide (64 * v > pixels.sum))).length - 1 - (63 - k) = k := by
    omega
  rw [hidx]
  have hk2 : k < (pixels.map (fun v => decide (64 * v > pixels.sum))).length := by omega
  rw [List.getD_eq_getElem _ _ hk2, List.getElem_map]
  congr 1
  rw [List.getD_eq_getElem _ _ (by omega)]

theorem ahash_bit_encodes_brightness_witness :
    Nat.testBit (ahashBits (255 :: List.replicate 63 0)) 63 =
      decide (64 * (255 :: List.replicate 63 0).getD 0 0 >
        (255 :: List.replicate 63 0).sum) :=
  ahash_bit_encodes_brightness (255 :: List.replicate 63 0) (by decide) 0 (by decide)

/-! ### DSU: chains, roots, well-formedness -/

theorem chain_add (p : List Nat) (k l x : Nat) :
    chain p (k + l) x = chain p l (chain p k x) := by
  induction k generalizing x with
  | zero =>
    rw [Nat.zero_add]
    simp only [chain]
  | succ k ih =>
    have h1 : k + 1 + l = (k + l) + 1 := by omega
    rw [h1]
    have h2 : chain p ((k + l) + 1) x = chain p (k + l) (parentOf p x) := rfl
    have h3 : chain p (k + 1) x = chain p k (parentOf p x) := rfl
    rw [h2, h3, ih]

theorem chain_succ_right (p : List Nat) (k x : Nat) :
    chain p (k + 1) x = parentOf p (chain p k x) := by
  induction k generalizing x with
  | zero => rfl
  | succ k ih =>
    have h1 : chain p (k + 1 + 1) x = chain p (k + 1) (parentOf p x) := rfl
    have h2 : chain p (k + 1) x = chain p k (parentOf p x) := rfl
    rw [h1, ih, h2]

theorem isRoot_chain (p : List Nat) (z : Nat) (hz : isRoot p z) (k : Nat) :
    chain p k z = z := by
  have hz2 : parentOf p z = z := hz
  induction k with
  | zero => rfl
  | succ k ih =>
    have h1 : chain p (k + 1) z = chain p k (parentOf p z) := rfl
    rw [h1, hz2, ih]

theorem rootedAt_unique {p : List Nat} {x z1 z2 : Nat}
    (h1 : RootedAt p x z1) (h2 : RootedAt p x z2) : z1 = z2 := by
  obtain ⟨k1, hc1, hr1⟩ := h1
  obtain ⟨k2, hc2, hr2⟩ := h2
  rcases Nat.le_total k1 k2 with h | h
  · have he : chain p k2 x = chain p (k2 - k1) (chain p k1 x) := by
      rw [← chain_add]; congr 1; omega
    rw [hc1, isRoot_chain p z1 hr1, hc2] at he
    exact he.symm
  · have he : chain p k1 x = chain p (k1 - k2) (chain p k2 x) := by
      rw [← chain_add]; congr 1; omega
    rw [hc2, isRoot_chain p z2 hr2, hc1] at he
    exact he

theorem parentOf_of_ge (p : List Nat) (x : Nat) (h : p.length ≤ x) :
    parentOf p x = x := List.getD_eq_default p x h

theorem parentOf_set_ne (p : List Nat) (x m y : Nat) (h : y ≠ x) :
    parentOf (p.set x m) y = parentOf p y := by
  unfold parentOf
  rw [List.getD_eq_getElem?_getD, List.getD_eq_getElem?_getD,
    List.getElem?_set_ne (Ne.symm h)]

theorem parentOf_set_self (p : List Nat) (x m : Nat) (h : x < p.length) :
    parentOf (p.set x m) x = m := by
  unfold parentOf
  rw [List.getD_eq_getElem?_getD, List.getElem?_set_self h, Option.getD_some]

theorem rank_le_parent (d : DSU) (h : WF d) (y : Nat) :
    rankOf d.r y ≤ rankOf d.r (parentOf d.p y) := by
  by_cases hy : y < d.p.length
  · by_cases hp : parentOf d.p y = y
    · rw [hp]
    · exact le_of_lt (h.2.2 y hy hp)
  · rw [parentOf_of_ge d.p y (by omega)]

theorem rank_le_chain (d : DSU) (h : WF d) (k y : Nat) :
    rankOf d.r y ≤ rankOf d.r (chain d.p k y) := by
  induction k generalizing y with
  | zero => exact le_refl _
  | succ k ih =>
    have h1 : chain d.p (k + 1) y = chain d.p k (parentOf d.p y) := rfl
    rw [h1]
    exact le_trans (rank_le_parent d h y) (ih (parentOf d.p y))

theorem chain_lt (d : DSU) (h : WF d) (k : Nat) {x : Nat} (hx : x < d.p.length) :
    chain d.p k x < d.p.length := by
  induction k generalizing x with
  | zero => exact hx
  | succ k ih => exact ih (h.2.1 x hx)

theorem exists_root_le (d : DSU) (h : WF d) (x : Nat) :
    ∃ k, k ≤ d.p.length ∧ isRoot d.p (chain d.p k x) := by
  by_cases hx : x < d.p.length
  case neg =>
    exact ⟨0, Nat.zero_le _, parentOf_of_ge d.p x (by omega)⟩
  case pos =>
    by_contra hcon
    push_neg at hcon
    have hnr : ∀ k, k ≤ d.p.length → parentOf d.p (chain d.p k x) ≠ chain d.p k x := by
      intro k hk
      exact hcon k hk
    have hstep : ∀ k, k < d.p.length →
        rankOf d.r (chain d.p k x) < rankOf d.r (chain d.p (k + 1) x) := by
      intro k hk
      rw [chain_succ_right]
      exact h.2.2 _ (chain_lt d h k hx) (hnr k (by omega))
    have hmono : ∀ k l, k < l → l ≤ d.p.length →
        rankOf d.r (chain d.p k x) < rankOf d.r (chain d.p l x) := by
      intro k l
      induction l with
      | zero => omega
      | succ l ihl =>
        intro hkl hle
        by_cases heq : k = l
        · subst heq; exact hstep k (by omega)
        · exact lt_trans (ihl (by omega) (by omega)) (hstep l (by omega))
    have hinj : Function.Injective
        (fun k : Fin (d.p.length + 1) =>
          (⟨chain d.p k.val x, chain_lt d h k.val hx⟩ : Fin d.p.length)) := by
      intro a b hab
      simp only [Fin.mk.injEq] at hab
      by_contra hne
      have hne2 : a.val ≠ b.val := fun hh => hne (Fin.ext hh)
      have ha := a.isLt
      have hb := b.isLt
      rcases Nat.lt_or_ge a.val b.val with hl | hl
      · have := hmono a.val b.val hl (by omega)
        rw [hab] at this; omega
      · have hlt : b.val < a.val := by omega
        have := hmono b.val a.val hlt (by omega)
        rw [hab] at this; omega
    have hcard := Fintype.card_le_of_injective _ hinj
    simp only [Fintype.card_fin] at hcard
    omega

theorem rootedAt_rootOf (d : DSU) (h : WF d) (x : Nat) :
    RootedAt d.p x (rootOf d.p x) := by
  obtain ⟨k, hk, hr⟩ := exists_root_le d h x
  have hchain : chain d.p d.p.length x = chain d.p k x := by
    calc chain d.p d.p.length x
        = chain d.p (k + (d.p.length - k)) x := by congr 1; omega
      _ = chain d.p (d.p.length - k) (chain d.p k x) := chain_add d.p k _ x
      _ = chain d.p k x := isRoot_chain d.p _ hr _
  refine ⟨d.p.length, rfl, ?_⟩
  show isRoot d.p (chain d.p d.p.length x)
  rw [hchain]
  exact hr

theorem isRoot_rootOf (d : DSU) (h : WF d) (x : Nat) :
    isRoot d.p (rootOf d.p x) := by
  obtain ⟨k, hc, hr⟩ := rootedAt_rootOf d h x
  exact hr

theorem rootOf_eq (d : DSU) (h : WF d) {x z : Nat} (hz : RootedAt d.p x z) :
    rootOf d.p x = z := rootedAt_unique (rootedAt_rootOf d h x) hz

theorem rootOf_lt (d : DSU) (h : WF d) {x : Nat} (hx : x < d.p.length) :
    rootOf d.p x < d.p.length := chain_lt d h _ hx

theorem rootOf_isRoot_self (p : List Nat) {z : Nat} (hz : isRoot p z) :
    rootOf p z = z := isRoot_chain p z hz _

theorem rootOf_ge (p : List Nat) {z : Nat} (hz : p.length ≤ z) :
    rootOf p z = z := rootOf_isRoot_self p (parentOf_of_ge p z hz)

theorem rootOf_eq_self_iff (d : DSU) (h : WF d) {z : Nat} (hz : z < d.p.length) :
    rootOf d.p z = z ↔ isRoot d.p z := by
  constructor
  · intro he
    by_contra hroot
    have h1 : rankOf d.r z < rankOf d.r (parentOf d.p z) := h.2.2 z hz hroot
    have h2 : rankOf d.r (parentOf d.p z) ≤ rankOf d.r (rootOf d.p z) := by
      have h3 : rootOf d.p z = chain d.p ((d.p.length - 1) + 1) z := by
        unfold rootOf
        rw [show (d.p.length - 1) + 1 = d.p.length from by omega]
      have h4 : chain d.p ((d.p.length - 1) + 1) z
          = chain d.p (d.p.length - 1) (parentOf d.p z) := rfl
      rw [h3, h4]
      exact rank_le_chain d h _ _
    rw [he] at h2
    omega
  · intro hroot
    exact rootOf_isRoot_self d.p hroot

/-! ### DSU: path halving preserves well-formedness and roots -/

theorem halve_target_ne (d : DSU) (h : WF d) (x : Nat) (hx : x < d.p.length)
    (hpx : parentOf d.p x ≠ x) : parentOf d.p (parentOf d.p x) ≠ x := by
  have h1 : rankOf d.r x < rankOf d.r (parentOf d.p x) := h.2.2 x hx hpx
  have h2 : rankOf d.r (parentOf d.p x) ≤
      rankOf d.r (parentOf d.p (parentOf d.p x)) := rank_le_parent d h _
  intro he
  rw [he] at h2
  omega

theorem WF_halve (d : DSU) (h : WF d) (x : Nat) (hx : x < d.p.length)
    (hpx : parentOf d.p x ≠ x) :
    WF ⟨d.p.set x (parentOf d.p (parentOf d.p x)), d.r⟩ := by
  have hpxlt : parentOf d.p x < d.p.length := h.2.1 x hx
  have hmlt : parentOf d.p (parentOf d.p x) < d.p.length := h.2.1 _ hpxlt
  refine ⟨?_, ?_, ?_⟩
  · dsimp only
    simp only [List.length_set]
    exact h.1
  · intro y hy
    dsimp only at hy ⊢
    simp only [List.length_set] at hy ⊢
    by_cases hyx : y = x
    · rw [hyx, parentOf_set_self _ _ _ hx]
      exact hmlt
    · rw [parentOf_set_ne _ _ _ _ hyx]
      exact h.2.1 y hy
  · intro y hy hne
    dsimp only at hy hne ⊢
    simp only [List.length_set] at hy
    by_cases hyx : y = x
    · rw [hyx] at hne ⊢
      rw [parentOf_set_self _ _ _ hx] at hne ⊢
      have h1 : rankOf d.r x < rankOf d.r (parentOf d.p x) := h.2.2 x hx hpx
      have h2 : rankOf d.r (parentOf d.p x) ≤
          rankOf d.r (parentOf d.p (parentOf d.p x)) := rank_le_parent d h _
      omega
    · rw [parentOf_set_ne _ _ _ _ hyx] at hne ⊢
      exact h.2.2 y hy hne

theorem rootedAt_halve (p : List Nat) (x : Nat) (hx : x < p.length)
    (hpx : parentOf p x ≠ x) (hm : parentOf p (parentOf p x) ≠ x) :
    ∀ k y z, chain p k y = z → isRoot p z →
      RootedAt (p.set x (parentOf p (parentOf p x))) y z := by
  intro k
  induction k using Nat.strong_induction_on with
  | _ k ih =>
    intro y z hc hz
    rcases k with _ | k1
    · have hyz : y = z := hc
      subst hyz
      have hyx : y ≠ x := by
        intro he
        subst he
        exact hpx hz
      refine ⟨0, rfl, ?_⟩
      show parentOf (p.set x (parentOf p (parentOf p x))) y = y
      rw [parentOf_set_ne _ _ _ _ hyx]
      exact hz
    · by_cases hyx : y = x
      · rw [hyx] at hc ⊢
        have hc1 : chain p k1 (parentOf p x) = z := hc
        rcases k1 with _ | k2
        · have hpz : parentOf p x = z := hc1
          have hzx : z ≠ x := by rw [← hpz]; exact hpx
          have hmz : parentOf p (parentOf p x) = z := by
            rw [hpz]
            exact hz
          refine ⟨1, ?_, ?_⟩
          · show parentOf (p.set x (parentOf p (parentOf p x))) x = z
            rw [parentOf_set_self _ _ _ hx]
            exact hmz
          · show parentOf (p.set x (parentOf p (parentOf p x))) z = z
            rw [parentOf_set_ne _ _ _ _ hzx]
            exact hz
        · have hc2 : chain p k2 (parentOf p (parentOf p x)) = z := hc1
          obtain ⟨k3, hc3, hr3⟩ := ih k2 (by omega) _ z hc2 hz
          refine ⟨k3 + 1, ?_, hr3⟩
          have h0 : chain (p.set x (parentOf p (parentOf p x))) (k3 + 1) x
              = chain (p.set x (parentOf p (parentOf p x))) k3
                  (parentOf (p.set x (parentOf p (parentOf p x))) x) := rfl
          rw [h0, parentOf_set_self _ _ _ hx]
          exact hc3
      · have hc1 : chain p k1 (parentOf p y) = z := hc
        obtain ⟨k3, hc3, hr3⟩ := ih k1 (by omega) _ z hc1 hz
        refine ⟨k3 + 1, ?_, hr3⟩
        have h0 : chain (p.set x (parentOf p (parentOf p x))) (k3 + 1) y
            = chain (p.set x (parentOf p (parentOf p x))) k3
                (parentOf (p.set x (parentOf p (parentOf p x))) y) := rfl
        rw [h0, parentOf_set_ne _ _ _ _ hyx]
        exact hc3

theorem rootOf_halve (d : DSU) (h : WF d) (x : Nat) (hx : x < d.p.length)
    (hpx : parentOf d.p x ≠ x) (y : Nat) :
    rootOf (d.p.set x (parentOf d.p (parentOf d.p x))) y = rootOf d.p y := by
  have hm := halve_target_ne d h x hx hpx
  have hq : WF ⟨d.p.set x (parentOf d.p (parentOf d.p x)), d.r⟩ :=
    WF_halve d h x hx hpx
  obtain ⟨k, hc, hr⟩ := rootedAt_rootOf d h y
  have h2 : RootedAt (d.p.set x (parentOf d.p (parentOf d.p x))) y (rootOf d.p y) :=
    rootedAt_halve d.p x hx hpx hm k y _ hc hr
  exact rootOf_eq ⟨d.p.set x (parentOf d.p (parentOf d.p x)), d.r⟩ hq h2

theorem chain_set_of_ne (p : List Nat) (x m : Nat) :
    ∀ (k y : Nat), (∀ j, j ≤ k → chain p j y ≠ x) →
      chain (p.set x m) k y = chain p k y := by
  intro k
  induction k with
  | zero => intro y hne; rfl
  | succ k ih =>
    intro y hne
    have hy : y ≠ x := hne 0 (Nat.zero_le _)
    have hne2 : ∀ j, j ≤ k → chain p j (parentOf p y) ≠ x := fun j hj =>
      hne (j + 1) (by omega)
    calc chain (p.set x m) (k + 1) y
        = chain (p.set x m) k (parentOf (p.set x m) y) := rfl
      _ = chain (p.set x m) k (parentOf p y) := by rw [parentOf_set_ne _ _ _ _ hy]
      _ = chain p k (parentOf p y) := ih _ hne2
      _ = chain p (k + 1) y := rfl

theorem chain_ne_of_rank_lt (d : DSU) (h : WF d) {x y : Nat}
    (hlt : rankOf d.r x < rankOf d.r y) (j : Nat) : chain d.p j y ≠ x := by
  have hle := rank_le_chain d h j y
  intro he
  rw [he] at hle
  omega

/-! ### DSU: specification of find -/

theorem findAux_spec : ∀ (fuel : Nat) (d : DSU) (x k z : Nat), WF d →
    chain d.p k x = z → isRoot d.p z → k ≤ 2 * fuel →
    (findAux fuel d x).2 = z ∧ WF (findAux fuel d x).1 ∧
    (findAux fuel d x).1.p.length = d.p.length ∧
    (findAux fuel d x).1.r = d.r ∧
    (∀ y, rootOf (findAux fuel d x).1.p y = rootOf d.p y) := by
  intro fuel
  induction fuel with
  | zero =>
    intro d x k z hwf hc hz hk
    have hk0 : k = 0 := by omega
    subst hk0
    have hxz : x = z := hc
    subst hxz
    exact ⟨rfl, hwf, rfl, rfl, fun y => rfl⟩
  | succ f ih =>
    intro d x k z hwf hc hz hk
    by_cases hpx : parentOf d.p x = x
    · have hroot : isRoot d.p x := hpx
      have hxz : x = z := by
        rw [isRoot_chain d.p x hroot k] at hc
        exact hc
      subst hxz
      have heq : findAux (f + 1) d x = (d, x) := by
        simp only [findAux, if_pos hpx]
      rw [heq]
      exact ⟨rfl, hwf, rfl, rfl, fun y => rfl⟩
    · have hx : x < d.p.length := by
        by_contra hge
        exact hpx (parentOf_of_ge d.p x (by omega))
      have hwf1 : WF ⟨d.p.set x (parentOf d.p (parentOf d.p x)), d.r⟩ :=
        WF_halve d hwf x hx hpx
      rcases k with _ | k1
      · exfalso
        have hxz : x = z := hc
        subst hxz
        exact hpx hz
      · have hc1 : chain d.p k1 (parentOf d.p x) = z := hc
        have hres : chain (d.p.set x (parentOf d.p (parentOf d.p x)))
              (k1 - 1) (parentOf d.p (parentOf d.p x)) = z ∧
            isRoot (d.p.set x (parentOf d.p (parentOf d.p x))) z ∧ k1 - 1 ≤ 2 * f := by
          rcases k1 with _ | k2
          · have hpz : parentOf d.p x = z := hc1
            have hzx : z ≠ x := by rw [← hpz]; exact hpx
            have hmz : parentOf d.p (parentOf d.p x) = z := by
              rw [hpz]
              exact hz
            refine ⟨hmz, ?_, by omega⟩
            show parentOf (d.p.set x (parentOf d.p (parentOf d.p x))) z = z
            rw [parentOf_set_ne _ _ _ _ hzx]
            exact hz
          · have hc2 : chain d.p k2 (parentOf d.p (parentOf d.p x)) = z := hc1
            have hrank : rankOf d.r x < rankOf d.r (parentOf d.p (parentOf d.p x)) := by
              have h1 := hwf.2.2 x hx hpx
              have h2 := rank_le_parent d hwf (parentOf d.p x)
              omega
            have havoid : ∀ j, j ≤ k2 →
                chain d.p j (parentOf d.p (parentOf d.p x)) ≠ x := fun j hj =>
              chain_ne_of_rank_lt d hwf hrank j
            have hzx : z ≠ x := by
              rw [← hc2]
              exact chain_ne_of_rank_lt d hwf hrank k2
            refine ⟨?_, ?_, by omega⟩
            · have h3 := chain_set_of_ne d.p x (parentOf d.p (parentOf d.p x)) k2
                (parentOf d.p (parentOf d.p x)) havoid
              simp only [Nat.add_sub_cancel]
              rw [h3]
              exact hc2
            · show parentOf (d.p.set x (parentOf d.p (parentOf d.p x))) z = z
              rw [parentOf_set_ne _ _ _ _ hzx]
              exact hz
        have H := ih ⟨d.p.set x (parentOf d.p (parentOf d.p x)), d.r⟩
          (parentOf d.p (parentOf d.p x)) (k1 - 1) z hwf1 hres.1 hres.2.1 hres.2.2
        have heq : findAux (f + 1) d x =
            findAux f ⟨d.p.set x (parentOf d.p (parentOf d.p x)), d.r⟩
              (parentOf d.p (parentOf d.p x)) := by
          simp only [findAux, if_neg hpx]
        rw [heq]
        refine ⟨H.1, H.2.1, ?_, H.2.2.2.1, ?_⟩
        · rw [H.2.2.1]
          exact List.length_set d.p x _
        · intro y
          rw [H.2.2.2.2 y]
          exact rootOf_halve d hwf x hx hpx y

theorem find_spec (d : DSU) (hwf : WF d) (x : Nat) :
    (find d x).2 = rootOf d.p x ∧ WF (find d x).1 ∧
    (find d x).1.p.length = d.p.length ∧ (find d x).1.r = d.r ∧
    (∀ y, rootOf (find d x).1.p y = rootOf d.p y) := by
  obtain ⟨k, hk, hr⟩ := exists_root_le d hwf x
  have hc : chain d.p k x = rootOf d.p x :=
    (rootOf_eq d hwf ⟨k, rfl, hr⟩).symm
  exact findAux_spec d.p.length d x k (rootOf d.p x) hwf hc
    (isRoot_rootOf d hwf x) (by omega)

/-! ### DSU: initial state -/

theorem parentOf_init (n x : Nat) : parentOf (List.range n) x = x := by
  by_cases hx : x < n
  · unfold parentOf
    rw [List.getD_eq_getElem _ _ (by simpa using hx)]
    exact List.getElem_range x _
  · exact parentOf_of_ge _ _ (by simpa using hx)

theorem WF_init (n : Nat) : WF (initDSU n) := by
  refine ⟨?_, ?_, ?_⟩
  · simp [initDSU]
  · intro x hx
    simp only [initDSU] at hx ⊢
    rw [parentOf_init]
    exact hx
  · intro x hx hne
    simp only [initDSU] at hne
    exact absurd (parentOf_init n x) hne

theorem rootOf_init (n x : Nat) : rootOf (initDSU n).p x = x := by
  have h : isRoot (initDSU n).p x := by
    show parentOf (initDSU n).p x = x
    simp only [initDSU]
    exact parentOf_init n x
  exact rootOf_isRoot_self _ h

/-! ### DSU: linking two roots -/

theorem WF_link_lt (d : DSU) (h : WF d) (u v : Nat) (hu : u < d.p.length)
    (hv : v < d.p.length) (hrank : rankOf d.r v < rankOf d.r u) :
    WF ⟨d.p.set v u, d.r⟩ := by
  refine ⟨?_, ?_, ?_⟩
  · dsimp only
    rw [List.length_set]
    exact h.1
  · intro y hy
    dsimp only at hy ⊢
    rw [List.length_set] at hy ⊢
    by_cases hyv : y = v
    · rw [hyv, parentOf_set_self _ _ _ hv]
      exact hu
    · rw [parentOf_set_ne _ _ _ _ hyv]
      exact h.2.1 y hy
  · intro y hy hne2
    dsimp only at hy hne2 ⊢
    rw [List.length_set] at hy
    by_cases hyv : y = v
    · rw [hyv] at hne2 ⊢
      rw [parentOf_set_self _ _ _ hv] at hne2 ⊢
      exact hrank
    · rw [parentOf_set_ne _ _ _ _ hyv] at hne2 ⊢
      exact h.2.2 y hy hne2

theorem WF_link_eq (d : DSU) (h : WF d) (u v : Nat) (hu : u < d.p.length)
    (hv : v < d.p.length) (hu_root : isRoot d.p u) (hne : u ≠ v)
    (hrank : rankOf d.r v = rankOf d.r u) :
    WF ⟨d.p.set v u, d.r.set u (rankOf d.r u + 1)⟩ := by
  have hulen : u < d.r.length := by rw [h.1]; exact hu
  have hrank_set_u : rankOf (d.r.set u (rankOf d.r u + 1)) u = rankOf d.r u + 1 := by
    unfold rankOf
    rw [List.getD_eq_getElem?_getD, List.getElem?_set_self hulen, Option.getD_some]
  have hrank_set_ne : ∀ y, y ≠ u →
      rankOf (d.r.set u (rankOf d.r u + 1)) y = rankOf d.r y := by
    intro y hy
    unfold rankOf
    rw [List.getD_eq_getElem?_getD, List.getElem?_set_ne (Ne.symm hy),
      ← List.getD_eq_getElem?_getD]
  have hrank_ge : ∀ y, rankOf d.r y ≤ rankOf (d.r.set u (rankOf d.r u + 1)) y := by
    intro y
    by_cases hy : y = u
    · rw [hy, hrank_set_u]
      omega
    · rw [hrank_set_ne y hy]
  refine ⟨?_, ?_, ?_⟩
  · dsimp only
    rw [List.length_set, List.length_set]
    exact h.1
  · intro y hy
    dsimp only at hy ⊢
    rw [List.length_set] at hy ⊢
    by_cases hyv : y = v
    · rw [hyv, parentOf_set_self _ _ _ hv]
      exact hu
    · rw [parentOf_set_ne _ _ _ _ hyv]
      exact h.2.1 y hy
  · intro y hy hne2
    dsimp only at hy hne2 ⊢
    rw [List.length_set] at hy
    by_cases hyv : y = v
    · rw [hyv] at hne2 ⊢
      rw [parentOf_set_self _ _ _ hv] at hne2 ⊢
      rw [hrank_set_ne v (Ne.symm hne), hrank_set_u]
      omega
    · rw [parentOf_set_ne _ _ _ _ hyv] at hne2 ⊢
      have hyu : y ≠ u := by
        intro he
        rw [he] at hne2
        exact hne2 hu_root
      rw [hrank_set_ne y hyu]
      exact lt_of_lt_of_le (h.2.2 y hy hne2) (hrank_ge _)

theorem rootedAt_set_root (p : List Nat) (u v : Nat) (hv : v < p.length)
    (hu_root : isRoot p u) (hv_root : isRoot p v) (hne : u ≠ v) :
    ∀ k y z, chain p k y = z → isRoot p z →
      RootedAt (p.set v u) y (if z = v then u else z) := by
  have hbase : ∀ z, isRoot p z → RootedAt (p.set v u) z (if z = v then u else z) := by
    intro z hz
    by_cases hzv : z = v
    · rw [if_pos hzv, hzv]
      refine ⟨1, ?_, ?_⟩
      · show parentOf (p.set v u) v = u
        exact parentOf_set_self p v u hv
      · show parentOf (p.set v u) u = u
        rw [parentOf_set_ne _ _ _ _ hne]
        exact hu_root
    · rw [if_neg hzv]
      refine ⟨0, rfl, ?_⟩
      show parentOf (p.set v u) z = z
      rw [parentOf_set_ne _ _ _ _ hzv]
      exact hz
  intro k
  induction k with
  | zero =>
    intro y z hc hz
    have hyz : y = z := hc
    subst hyz
    exact hbase y hz
  | succ k ih =>
    intro y z hc hz
    by_cases hy_root : isRoot p y
    · have hyz : z = y := by
        rw [← hc, isRoot_chain p y hy_root]
      subst hyz
      exact hbase z hy_root
    · have hyv : y ≠ v := by
        intro he
        rw [he] at hy_root
        exact hy_root hv_root
      have hc1 : chain p k (parentOf p y) = z := hc
      obtain ⟨k3, hc3, hr3⟩ := ih (parentOf p y) z hc1 hz
      refine ⟨k3 + 1, ?_, hr3⟩
      have h0 : chain (p.set v u) (k3 + 1) y
          = chain (p.set v u) k3 (parentOf (p.set v u) y) := rfl
      rw [h0, parentOf_set_ne _ _ _ _ hyv]
      exact hc3

theorem rootOf_set_root (d : DSU) (h : WF d) (u v : Nat) (hv : v < d.p.length)
    (hu_root : isRoot d.p u) (hv_root : isRoot d.p v) (hne : u ≠ v)
    (r2 : List Nat) (hq : WF ⟨d.p.set v u, r2⟩) (y : Nat) :
    rootOf (d.p.set v u) y = if rootOf d.p y = v then u else rootOf d.p y := by
  obtain ⟨k, hc, hr⟩ := rootedAt_rootOf d h y
  have h2 := rootedAt_set_root d.p u v hv hu_root hv_root hne k y _ hc hr
  exact rootOf_eq ⟨d.p.set v u, r2⟩ hq h2

theorem collapse_iff (A B ra rb u v : Nat)
    (huv : (u = ra ∧ v = rb) ∨ (u = rb ∧ v = ra)) (hne : u ≠ v) :
    ((if A = v then u else A) = (if B = v then u else B) ↔
      (A = B ∨ (A = ra ∧ B = rb) ∨ (A = rb ∧ B = ra))) := by
  rcases huv with ⟨h1, h2⟩ | ⟨h1, h2⟩ <;> subst h1 <;> subst h2 <;>
    split_ifs <;> omega

theorem link_spec (d2 : DSU) (hwf2 : WF d2) (ra rb : Nat)
    (hra_lt : ra < d2.p.length) (hrb_lt : rb < d2.p.length)
    (hra_root : isRoot d2.p ra) (hrb_root : isRoot d2.p rb) :
    WF (linkDSU d2 ra rb) ∧ (linkDSU d2 ra rb).p.length = d2.p.length ∧
    (∀ x y, sameSetP (linkDSU d2 ra rb).p x y ↔
      (sameSetP d2.p x y ∨ (sameSetP d2.p x ra ∧ sameSetP d2.p y rb) ∨
        (sameSetP d2.p x rb ∧ sameSetP d2.p y ra))) := by
  have hRa : rootOf d2.p ra = ra := rootOf_isRoot_self d2.p hra_root
  have hRb : rootOf d2.p rb = rb := rootOf_isRoot_self d2.p hrb_root
  by_cases hcase : ra = rb
  · have hld : linkDSU d2 ra rb = d2 := by
      unfold linkDSU
      rw [if_pos hcase]
    rw [hld]
    refine ⟨hwf2, rfl, ?_⟩
    intro x y
    unfold sameSetP
    rw [hcase] at hRa
    constructor
    · intro h
      exact Or.inl h
    · intro h
      rcases h with h | ⟨h1, h2⟩ | ⟨h1, h2⟩
      · exact h
      · rw [hcase] at h1
        omega
      · rw [hcase] at h2
        omega
  · unfold linkDSU
    rw [if_neg hcase]
    dsimp only
    by_cases hrk : rankOf d2.r ra < rankOf d2.r rb
    · rw [if_pos hrk, if_pos hrk,
        if_neg (by omega : ¬ rankOf d2.r rb = rankOf d2.r ra)]
      have hwf3 : WF ⟨d2.p.set ra rb, d2.r⟩ :=
        WF_link_lt d2 hwf2 rb ra hrb_lt hra_lt hrk
      have hchar := rootOf_set_root d2 hwf2 rb ra hra_lt hrb_root hra_root
        (Ne.symm hcase) d2.r hwf3
      refine ⟨hwf3, by dsimp only; rw [List.length_set], ?_⟩
      intro x y
      unfold sameSetP
      dsimp only
      rw [hchar x, hchar y, hRa, hRb]
      exact collapse_iff (rootOf d2.p x) (rootOf d2.p y) ra rb rb ra
        (Or.inr ⟨rfl, rfl⟩) (fun he => hcase he.symm)
    · by_cases heq : rankOf d2.r ra = rankOf d2.r rb
      · rw [if_neg hrk, if_neg hrk, if_pos heq]
        have hwf3 : WF ⟨d2.p.set rb ra, d2.r.set ra (rankOf d2.r ra + 1)⟩ :=
          WF_link_eq d2 hwf2 ra rb hra_lt hrb_lt hra_root hcase heq.symm
        have hchar := rootOf_set_root d2 hwf2 ra rb hrb_lt hra_root hrb_root
          hcase (d2.r.set ra (rankOf d2.r ra + 1)) hwf3
        refine ⟨hwf3, by dsimp only; rw [List.length_set], ?_⟩
        intro x y
        unfold sameSetP
        dsimp only
        rw [hchar x, hchar y, hRa, hRb]
        exact collapse_iff (rootOf d2.p x) (rootOf d2.p y) ra rb ra rb
          (Or.inl ⟨rfl, rfl⟩) hcase
      · rw [if_neg hrk, if_neg hrk, if_neg heq]
        have hwf3 : WF ⟨d2.p.set rb ra, d2.r⟩ :=
          WF_link_lt d2 hwf2 ra rb hra_lt hrb_lt (by omega)
        have hchar := rootOf_set_root d2 hwf2 ra rb hrb_lt hra_root hrb_root
          hcase d2.r hwf3
        refine ⟨hwf3, by dsimp only; rw [List.length_set], ?_⟩
        intro x y
        unfold sameSetP
        dsimp only
        rw [hchar x, hchar y, hRa, hRb]
        exact collapse_iff (rootOf d2.p x) (rootOf d2.p y) ra rb ra rb
          (Or.inl ⟨rfl, rfl⟩) hcase

theorem union_spec (d : DSU) (hwf : WF d) (a b : Nat) (ha : a < d.p.length)
    (hb : b < d.p.length) :
    WF (union d a b) ∧ (union d a b).p.length = d.p.length ∧
    (∀ x y, sameSetP (union d a b).p x y ↔
      (sameSetP d.p x y ∨ (sameSetP d.p x a ∧ sameSetP d.p y b) ∨
        (sameSetP d.p x b ∧ sameSetP d.p y a))) := by
  have Hfa := find_spec d hwf a
  have Hfb := find_spec (find d a).1 Hfa.2.1 b
  have hwf2 : WF (find (find d a).1 b).1 := Hfb.2.1
  have hlen2 : (find (find d a).1 b).1.p.length = d.p.length := by
    rw [Hfb.2.2.1, Hfa.2.2.1]
  have hroots2 : ∀ y, rootOf (find (find d a).1 b).1.p y = rootOf d.p y := fun y =>
    (Hfb.2.2.2.2 y).trans (Hfa.2.2.2.2 y)
  have hra : (find d a).2 = rootOf d.p a := Hfa.1
  have hrb : (find (find d a).1 b).2 = rootOf d.p b := by
    rw [Hfb.1]
    exact Hfa.2.2.2.2 b
  have hu : union d a b =
      linkDSU (find (find d a).1 b).1 (rootOf d.p a) (rootOf d.p b) := by
    show linkDSU (find (find d a).1 b).1 (find d a).2 (find (find d a).1 b).2 = _
    rw [hra, hrb]
  rw [hu]
  have hra_lt : rootOf d.p a < (find (find d a).1 b).1.p.length := by
    rw [hlen2]
    exact rootOf_lt d hwf ha
  have hrb_lt : rootOf d.p b < (find (find d a).1 b).1.p.length := by
    rw [hlen2]
    exact rootOf_lt d hwf hb
  have hra_root : isRoot (find (find d a).1 b).1.p (rootOf d.p a) := by
    rw [← rootOf_eq_self_iff _ hwf2 hra_lt, hroots2]
    exact rootOf_isRoot_self d.p (isRoot_rootOf d hwf a)
  have hrb_root : isRoot (find (find d a).1 b).1.p (rootOf d.p b) := by
    rw [← rootOf_eq_self_iff _ hwf2 hrb_lt, hroots2]
    exact rootOf_isRoot_self d.p (isRoot_rootOf d hwf b)
  have L := link_spec (find (find d a).1 b).1 hwf2 (rootOf d.p a) (rootOf d.p b)
    hra_lt hrb_lt hra_root hrb_root
  refine ⟨L.1, L.2.1.trans hlen2, ?_⟩
  intro x y
  rw [L.2.2 x y]
  unfold sameSetP
  rw [hroots2 x, hroots2 y, hroots2 (rootOf d.p a), hroots2 (rootOf d.p b),
    rootOf_isRoot_self d.p (isRoot_rootOf d hwf a),
    rootOf_isRoot_self d.p (isRoot_rootOf d hwf b)]

/-! ### DSU: a run of unions realises the transitive closure -/

theorem eqvGen_mono_embed {α : Type} {R S : α → α → Prop}
    (h : ∀ u v, R u v → Relation.EqvGen S u v) {x y : α}
    (hxy : Relation.EqvGen R x y) : Relation.EqvGen S x y :=
  (Relation.EqvGen.is_equivalence S).eqvGen_iff.mp (Relation.EqvGen.mono h hxy)

theorem runUnions_spec : ∀ (ps : List (Nat × Nat)) (d : DSU), WF d →
    (∀ pr ∈ ps, pr.1 < d.p.length ∧ pr.2 < d.p.length) →
    WF (runUnions d ps) ∧ (runUnions d ps).p.length = d.p.length ∧
    (∀ x y, sameSetP (runUnions d ps).p x y ↔
      Relation.EqvGen (fun u v => sameSetP d.p u v ∨ (u, v) ∈ ps) x y) := by
  intro ps
  induction ps with
  | nil =>
    intro d hwf hps
    refine ⟨hwf, rfl, ?_⟩
    intro x y
    constructor
    · intro h
      exact Relation.EqvGen.rel x y (Or.inl h)
    · intro h
      have hequiv : Equivalence
          (fun u v => sameSetP d.p u v ∨ (u, v) ∈ ([] : List (Nat × Nat))) := by
        constructor
        · intro z
          exact Or.inl rfl
        · intro z w hzw
          rcases hzw with hzw | hzw
          · exact Or.inl hzw.symm
          · simp at hzw
        · intro z w t hzw hwt
          rcases hzw with hzw | hzw
          · rcases hwt with hwt | hwt
            · exact Or.inl (hzw.trans hwt)
            · simp at hwt
          · simp at hzw
      rcases hequiv.eqvGen_iff.mp h with h | h
      · exact h
      · simp at h
  | cons pr rest ih =>
    intro d hwf hps
    have hpr := hps pr (List.mem_cons_self pr rest)
    have Hu := union_spec d hwf pr.1 pr.2 hpr.1 hpr.2
    have hps2 : ∀ q ∈ rest,
        q.1 < (union d pr.1 pr.2).p.length ∧ q.2 < (union d pr.1 pr.2).p.length := by
      intro q hq
      rw [Hu.2.1]
      exact hps q (List.mem_cons_of_mem pr hq)
    have H := ih (union d pr.1 pr.2) Hu.1 hps2
    have hrun : runUnions d (pr :: rest) = runUnions (union d pr.1 pr.2) rest := rfl
    rw [hrun]
    refine ⟨H.1, H.2.1.trans Hu.2.1, ?_⟩
    intro x y
    rw [H.2.2 x y]
    constructor
    · intro h
      refine eqvGen_mono_embed ?_ h
      intro u v huv
      rcases huv with huv | huv
      · rcases (Hu.2.2 u v).mp huv with h1 | ⟨h1, h2⟩ | ⟨h1, h2⟩
        · exact Relation.EqvGen.rel u v (Or.inl h1)
        · refine Relation.EqvGen.trans u pr.1 v
            (Relation.EqvGen.rel _ _ (Or.inl h1)) ?_
          refine Relation.EqvGen.trans pr.1 pr.2 v
            (Relation.EqvGen.rel _ _ (Or.inr ?_)) ?_
          · rw [Prod.mk.eta]
            exact List.mem_cons_self pr rest
          · exact Relation.EqvGen.symm _ _ (Relation.EqvGen.rel v pr.2 (Or.inl h2))
        · refine Relation.EqvGen.trans u pr.2 v
            (Relation.EqvGen.rel _ _ (Or.inl h1)) ?_
          refine Relation.EqvGen.trans pr.2 pr.1 v
            (Relation.EqvGen.symm _ _ (Relation.EqvGen.rel _ _ (Or.inr ?_))) ?_
          · rw [Prod.mk.eta]
            exact List.mem_cons_self pr rest
          · exact Relation.EqvGen.symm _ _ (Relation.EqvGen.rel v pr.1 (Or.inl h2))
      · exact Relation.EqvGen.rel u v (Or.inr (List.mem_cons_of_mem pr huv))
    · intro h
      refine eqvGen_mono_embed ?_ h
      intro u v huv
      rcases huv with huv | huv
      · exact Relation.EqvGen.rel u v (Or.inl ((Hu.2.2 u v).mpr (Or.inl huv)))
      · rcases List.mem_cons.mp huv with huv | huv
        · have h1 : u = pr.1 := congrArg Prod.fst huv
          have h2 : v = pr.2 := congrArg Prod.snd huv
          have hsame : sameSetP (union d pr.1 pr.2).p u v :=
            (Hu.2.2 u v).mpr (Or.inr (Or.inl
              ⟨by rw [h1]; exact rfl, by rw [h2]; exact rfl⟩))
          exact Relation.EqvGen.rel u v (Or.inl hsame)
        · exact Relation.EqvGen.rel u v (Or.inr huv)

theorem sameSet_runUnions_init (n : Nat) (ps : List (Nat × Nat))
    (hps : ∀ pr ∈ ps, pr.1 < n ∧ pr.2 < n) (x y : Nat) :
    sameSetP (runUnions (initDSU n) ps).p x y ↔
      Relation.EqvGen (fun u v => (u, v) ∈ ps) x y := by
  have hlen : (initDSU n).p.length = n := by simp [initDSU]
  have H := runUnions_spec ps (initDSU n) (WF_init n) (by rw [hlen]; exact hps)
  rw [H.2.2 x y]
  constructor
  · intro h
    refine eqvGen_mono_embed ?_ h
    intro u v huv
    rcases huv with huv | huv
    · have huv2 : u = v := by
        have h1 := rootOf_init n u
        have h2 := rootOf_init n v
        unfold sameSetP at huv
        rw [h1, h2] at huv
        exact huv
      rw [huv2]
      exact Relation.EqvGen.refl v
    · exact Relation.EqvGen.rel u v huv
  · intro h
    exact Relation.EqvGen.mono (fun u v huv => Or.inr huv) h

/-- C1: after any sequence of `union(a, b)` calls with valid indices, two
`find` calls (in sequence, each mutating the state) return equal roots iff
the queried indices are connected by the reflexive-symmetric-transitive
closure of the unioned pairs. -/
theorem dsu_find_connected (n : Nat) (ps : List (Nat × Nat))
    (hps : ∀ pr ∈ ps, pr.1 < n ∧ pr.2 < n) (x y : Nat) (hx : x < n) (hy : y < n) :
    ((find (runUnions (initDSU n) ps) x).2 =
      (find (find (runUnions (initDSU n) ps) x).1 y).2) ↔
    Relation.EqvGen (fun u v => (u, v) ∈ ps) x y := by
  have hlen : (initDSU n).p.length = n := by simp [initDSU]
  have H := runUnions_spec ps (initDSU n) (WF_init n) (by rw [hlen]; exact hps)
  have Hf := find_spec (runUnions (initDSU n) ps) H.1 x
  have Hf2 := find_spec (find (runUnions (initDSU n) ps) x).1 Hf.2.1 y
  rw [Hf.1, Hf2.1, Hf.2.2.2.2 y]
  exact sameSet_runUnions_init n ps hps x y

theorem dsu_find_connected_witness :
    (find (runUnions (initDSU 3) [(0, 1)]) 0).2 =
      (find (find (runUnions (initDSU 3) [(0, 1)]) 0).1 1).2 :=
  (dsu_find_connected 3 [(0, 1)] (by decide) 0 1 (by decide) (by decide)).mpr
    (Relation.EqvGen.rel 0 1 (by decide))

/-- C9: on any well-formed DSU state (the forest shape maintained by
`__init__` and `union`) and any in-range index, `find` terminates within its
fuel and returns an in-range index that is its own parent, both in the
updated state and in the original one. -/
theorem find_terminates_root (d : DSU) (hwf : WF d) (x : Nat)
    (hx : x < d.p.length) :
    (find d x).2 < d.p.length ∧ isRoot (find d x).1.p (find d x).2 ∧
      isRoot d.p (find d x).2 := by
  have H := find_spec d hwf x
  refine ⟨?_, ?_, ?_⟩
  · rw [H.1]
    exact rootOf_lt d hwf hx
  · rw [← rootOf_eq_self_iff (find d x).1 H.2.1
      (by rw [H.2.2.1, H.1]; exact rootOf_lt d hwf hx)]
    rw [H.2.2.2.2, H.1]
    exact rootOf_isRoot_self d.p (isRoot_rootOf d hwf x)
  · rw [H.1]
    exact isRoot_rootOf d hwf x

theorem find_terminates_root_witness :
    (find (initDSU 2) 0).2 < (initDSU 2).p.length ∧
      isRoot (find (initDSU 2) 0).1.p (find (initDSU 2) 0).2 ∧
      isRoot (initDSU 2).p (find (initDSU 2) 0).2 :=
  find_terminates_root (initDSU 2) (WF_init 2) 0 (by decide)

/-! ### The insertion-ordered component map -/

theorem lookup_addToComp (c : List (Nat × List Nat)) (k i key : Nat) :
    lookupComp (addToComp c k i) key =
      if key = k then lookupComp c k ++ [i] else lookupComp c key := by
  induction c with
  | nil =>
    by_cases h : key = k
    · subst h
      simp [addToComp, lookupComp]
    · have h2 : ¬ k = key := fun hh => h hh.symm
      simp [addToComp, lookupComp, h, h2]
  | cons hd tl ih =>
    obtain ⟨k0, l0⟩ := hd
    by_cases h0 : k0 = k
    · subst h0
      by_cases h : key = k0
      · subst h
        simp [addToComp, lookupComp]
      · have h2 : ¬ k0 = key := fun hh => h hh.symm
        simp [addToComp, lookupComp, h, h2]
    · by_cases h : key = k0
      · subst h
        simp [addToComp, lookupComp, h0]
      · have h2 : ¬ k0 = key := fun hh => h hh.symm
        simp [addToComp, lookupComp, h0, h2, ih]

theorem mem_lookup_addAll (l : List (Nat × Nat)) :
    ∀ (c : List (Nat × List Nat)) (key i : Nat),
      (i ∈ lookupComp (addAll c l) key ↔ i ∈ lookupComp c key ∨ (key, i) ∈ l) := by
  induction l with
  | nil =>
    intro c key i
    simp [addAll]
  | cons hd tl ih =>
    intro c key i
    have h1 : addAll c (hd :: tl) = addAll (addToComp c hd.1 hd.2) tl := rfl
    rw [h1, ih, lookup_addToComp]
    by_cases hk : key = hd.1
    · rw [if_pos hk]
      subst hk
      simp [Prod.ext_iff, List.mem_append]
      tauto
    · rw [if_neg hk]
      simp [Prod.ext_iff, hk]

theorem compKeys_addToComp (c : List (Nat × List Nat)) (k i : Nat) :
    compKeys (addToComp c k i) =
      if k ∈ compKeys c then compKeys c else compKeys c ++ [k] := by
  induction c with
  | nil => simp [addToComp, compKeys]
  | cons hd tl ih =>
    obtain ⟨k0, l0⟩ := hd
    by_cases h0 : k0 = k
    · subst h0
      simp [addToComp, compKeys]
    · have h1 : addToComp ((k0, l0) :: tl) k i = (k0, l0) :: addToComp tl k i := by
        simp [addToComp, h0]
      rw [h1]
      have h2 : compKeys ((k0, l0) :: addToComp tl k i)
          = k0 :: compKeys (addToComp tl k i) := rfl
      have h3 : compKeys ((k0, l0) :: tl) = k0 :: compKeys tl := rfl
      rw [h2, h3, ih]
      have h4 : (k ∈ k0 :: compKeys tl) ↔ k ∈ compKeys tl := by
        have h5 : ¬ k = k0 := fun hh => h0 hh.symm
        simp [h5]
      by_cases hm : k ∈ compKeys tl
      · rw [if_pos hm, if_pos (h4.mpr hm)]
      · rw [if_neg hm, if_neg (fun hh => hm (h4.mp hh))]
        rfl

theorem compKeys_nodup_addToComp (c : List (Nat × List Nat)) (k i : Nat)
    (h : (compKeys c).Nodup) : (compKeys (addToComp c k i)).Nodup := by
  rw [compKeys_addToComp]
  by_cases hm : k ∈ compKeys c
  · rw [if_pos hm]
    exact h
  · rw [if_neg hm]
    rw [(List.perm_append_singleton k (compKeys c)).nodup_iff]
    exact List.nodup_cons.mpr ⟨hm, h⟩

theorem compKeys_nodup_addAll (l : List (Nat × Nat)) :
    ∀ c, (compKeys c).Nodup → (compKeys (addAll c l)).Nodup := by
  induction l with
  | nil => intro c h; exact h
  | cons hd tl ih =>
    intro c h
    exact ih _ (compKeys_nodup_addToComp c hd.1 hd.2 h)

theorem lookup_of_mem_pairs (c : List (Nat × List Nat)) :
    (compKeys c).Nodup → ∀ {k : Nat} {l : List Nat}, (k, l) ∈ c →
      lookupComp c k = l := by
  induction c with
  | nil =>
    intro h k l hm
    simp at hm
  | cons hd tl ih =>
    intro h k l hm
    have hkeys : compKeys (hd :: tl) = hd.1 :: compKeys tl := rfl
    rw [hkeys] at h
    rcases List.mem_cons.mp hm with heq | htl
    · rw [← heq]
      simp [lookupComp]
    · have hk_tl : k ∈ compKeys tl := by
        unfold compKeys
        rw [List.mem_map]
        exact ⟨(k, l), htl, rfl⟩
      have hhd : hd.1 ≠ k := by
        intro he
        have h1 := (List.nodup_cons.mp h).1
        rw [he] at h1
        exact h1 hk_tl
      obtain ⟨k0, l0⟩ := hd
      simp only [lookupComp, if_neg hhd]
      exact ih (List.nodup_cons.mp h).2 htl

theorem pairs_mem_of_mem_lookup (c : List (Nat × List Nat)) {key i : Nat}
    (h : i ∈ lookupComp c key) : (key, lookupComp c key) ∈ c := by
  induction c with
  | nil => simp [lookupComp] at h
  | cons hd tl ih =>
    obtain ⟨k0, l0⟩ := hd
    by_cases hk : k0 = key
    · subst hk
      simp [lookupComp]
    · simp only [lookupComp, if_neg hk] at h ⊢
      exact List.mem_cons_of_mem _ (ih h)

theorem lookup_addAll_nodup (l : List (Nat × Nat)) :
    ∀ (c : List (Nat × List Nat)),
      (∀ key, (lookupComp c key).Nodup) →
      (∀ key i, i ∈ lookupComp c key → i ∉ l.map Prod.snd) →
      (l.map Prod.snd).Nodup →
      ∀ key, (lookupComp (addAll c l) key).Nodup := by
  induction l with
  | nil =>
    intro c h1 h2 h3 key
    exact h1 key
  | cons hd tl ih =>
    intro c h1 h2 h3 key
    have hmap : (hd :: tl).map Prod.snd = hd.2 :: tl.map Prod.snd := rfl
    rw [hmap] at h3
    have h3c := List.nodup_cons.mp h3
    have haddl : addAll c (hd :: tl) = addAll (addToComp c hd.1 hd.2) tl := rfl
    rw [haddl]
    refine ih _ ?_ ?_ h3c.2 key
    · intro key2
      rw [lookup_addToComp]
      by_cases hk : key2 = hd.1
      · rw [if_pos hk]
        rw [(List.perm_append_singleton hd.2 (lookupComp c hd.1)).nodup_iff]
        refine List.nodup_cons.mpr ⟨?_, h1 hd.1⟩
        intro hmem
        exact h2 hd.1 hd.2 hmem (by rw [hmap]; exact List.mem_cons_self _ _)
      · rw [if_neg hk]
        exact h1 key2
    · intro key2 i hmem
      rw [lookup_addToComp] at hmem
      by_cases hk : key2 = hd.1
      · rw [if_pos hk] at hmem
        rcases List.mem_append.mp hmem with hmem | hmem
        · have := h2 hd.1 i hmem
          rw [hmap] at this
          intro hmem2
          exact this (List.mem_cons_of_mem _ hmem2)
        · have hi : i = hd.2 := by simpa using hmem
          rw [hi]
          exact h3c.1
      · rw [if_neg hk] at hmem
        have := h2 key2 i hmem
        rw [hmap] at this
        intro hmem2
        exact this (List.mem_cons_of_mem _ hmem2)

theorem addAll_const_key (l : List Nat) :
    ∀ (k0 : Nat) (acc : List Nat),
      addAll [(k0, acc)] (l.map (fun i => (k0, i))) = [(k0, acc ++ l)] := by
  induction l with
  | nil =>
    intro k0 acc
    simp [addAll]
  | cons hd tl ih =>
    intro k0 acc
    have h1 : addAll [(k0, acc)] ((hd :: tl).map (fun i => (k0, i)))
        = addAll (addToComp [(k0, acc)] k0 hd) (tl.map (fun i => (k0, i))) := rfl
    have h2 : addToComp [(k0, acc)] k0 hd = [(k0, acc ++ [hd])] := by
      simp [addToComp]
    rw [h1, h2, ih]
    simp

/-! ### The comparison pass and component collection -/

theorem mem_simPairs (hashes : List Int) (thr : Nat) (a b : Nat) :
    ((a, b) ∈ simPairs hashes thr) ↔
      (a < b ∧ b < hashes.length ∧ ¬ hashes.getD a 0 < 0 ∧ ¬ hashes.getD b 0 < 0 ∧
        hamming (hashes.getD a 0).toNat (hashes.getD b 0).toNat ≤ thr) := by
  unfold simPairs simPairsInner
  rw [List.mem_flatMap]
  constructor
  · rintro ⟨i, hi, hmem⟩
    rw [List.mem_range] at hi
    by_cases hvi : hashes.getD i 0 < 0
    · rw [if_pos hvi] at hmem
      simp at hmem
    · rw [if_neg hvi] at hmem
      rw [List.mem_filterMap] at hmem
      obtain ⟨j, hj, heq⟩ := hmem
      rw [List.mem_range'_1] at hj
      by_cases hvj : hashes.getD j 0 < 0
      · rw [if_pos hvj] at heq
        simp at heq
      · rw [if_neg hvj] at heq
        by_cases hh : hamming (hashes.getD i 0).toNat (hashes.getD j 0).toNat ≤ thr
        · rw [if_pos hh] at heq
          have h1 : i = a ∧ j = b := by
            simpa using heq
          obtain ⟨ha, hb⟩ := h1
          subst ha
          subst hb
          exact ⟨by omega, by omega, hvi, hvj, hh⟩
        · rw [if_neg hh] at heq
          simp at heq
  · rintro ⟨hab, hbn, hva, hvb, hham⟩
    refine ⟨a, ?_, ?_⟩
    · rw [List.mem_range]
      omega
    · rw [if_neg hva, List.mem_filterMap]
      refine ⟨b, ?_, ?_⟩
      · rw [List.mem_range'_1]
        omega
      · rw [if_neg hvb, if_pos hham]

theorem buildDSU_spec (hashes : List Int) (thr : Nat) :
    WF (buildDSU hashes thr) ∧ (buildDSU hashes thr).p.length = hashes.length ∧
    (∀ x y, sameSetP (buildDSU hashes thr).p x y ↔
      Relation.EqvGen (fun u v => (u, v) ∈ simPairs hashes thr) x y) := by
  have hvalid : ∀ pr ∈ simPairs hashes thr,
      pr.1 < hashes.length ∧ pr.2 < hashes.length := by
    intro pr hpr
    have h := (mem_simPairs hashes thr pr.1 pr.2).mp (by rw [Prod.mk.eta]; exact hpr)
    exact ⟨by omega, by omega⟩
  have hlen : (initDSU hashes.length).p.length = hashes.length := by simp [initDSU]
  have H := runUnions_spec (simPairs hashes thr) (initDSU hashes.length)
    (WF_init _) (by rw [hlen]; exact hvalid)
  exact ⟨H.1, H.2.1.trans hlen, fun x y => sameSet_runUnions_init _ _ hvalid x y⟩

theorem collectAux_spec (hashes : List Int) :
    ∀ (idxs : List Nat) (d : DSU) (c : List (Nat × List Nat)), WF d →
      WF (collectAux hashes idxs d c).1 ∧
      (∀ y, rootOf (collectAux hashes idxs d c).1.p y = rootOf d.p y) ∧
      (collectAux hashes idxs d c).1.p.length = d.p.length ∧
      (collectAux hashes idxs d c).2 = addAll c (compInserts d.p hashes idxs) := by
  intro idxs
  induction idxs with
  | nil =>
    intro d c hwf
    exact ⟨hwf, fun y => rfl, rfl, rfl⟩
  | cons idx rest ih =>
    intro d c hwf
    by_cases hv : hashes.getD idx 0 < 0
    · have h1 : collectAux hashes (idx :: rest) d c = collectAux hashes rest d c := by
        simp only [collectAux]
        rw [if_pos hv]
      have h2 : compInserts d.p hashes (idx :: rest) = compInserts d.p hashes rest := by
        unfold compInserts
        rw [List.filter_cons,
          if_neg (by rw [decide_eq_true hv]; simp)]
      rw [h1, h2]
      exact ih d c hwf
    · have Hf := find_spec d hwf idx
      have h1 : collectAux hashes (idx :: rest) d c
          = collectAux hashes rest (find d idx).1 (addToComp c (find d idx).2 idx) := by
        simp only [collectAux]
        rw [if_neg hv]
      rw [h1]
      have H := ih (find d idx).1 (addToComp c (find d idx).2 idx) Hf.2.1
      refine ⟨H.1, ?_, ?_, ?_⟩
      · intro y
        rw [H.2.1 y, Hf.2.2.2.2 y]
      · rw [H.2.2.1, Hf.2.2.1]
      · rw [H.2.2.2]
        have hci : compInserts (find d idx).1.p hashes rest
            = compInserts d.p hashes rest := by
          unfold compInserts
          apply List.map_congr_left
          intro i hi
          rw [Hf.2.2.2.2 i]
        rw [hci]
        have hfst : compInserts d.p hashes (idx :: rest)
            = (rootOf d.p idx, idx) :: compInserts d.p hashes rest := by
          unfold compInserts
          rw [List.filter_cons, if_pos (by rw [decide_eq_false hv]; rfl)]
          rfl
        rw [hfst]
        have h3 : addAll c ((rootOf d.p idx, idx) :: compInserts d.p hashes rest)
            = addAll (addToComp c (rootOf d.p idx) idx)
                (compInserts d.p hashes rest) := rfl
        rw [h3, Hf.1]

theorem comps_char (hashes : List Int) (thr : Nat) :
    (∀ key i, i ∈ lookupComp (collectComps hashes thr).2 key ↔
      (i < hashes.length ∧ ¬ hashes.getD i 0 < 0 ∧
        rootOf (buildDSU hashes thr).p i = key)) ∧
    (compKeys (collectComps hashes thr).2).Nodup ∧
    (∀ key, (lookupComp (collectComps hashes thr).2 key).Nodup) := by
  have HB := buildDSU_spec hashes thr
  have HC := collectAux_spec hashes (List.range hashes.length)
    (buildDSU hashes thr) [] HB.1
  have hcomps : (collectComps hashes thr).2
      = addAll [] (compInserts (buildDSU hashes thr).p hashes
          (List.range hashes.length)) := HC.2.2.2
  have hsnd : (compInserts (buildDSU hashes thr).p hashes
      (List.range hashes.length)).map Prod.snd
      = (List.range hashes.length).filter
          (fun i => !decide (hashes.getD i 0 < 0)) := by
    unfold compInserts
    rw [List.map_map]
    have hcmp : (Prod.snd ∘ fun i : Nat => (rootOf (buildDSU hashes thr).p i, i))
        = (id : Nat → Nat) := by
      funext i
      rfl
    rw [hcmp, List.map_id]
  refine ⟨?_, ?_, ?_⟩
  · intro key i
    rw [hcomps, mem_lookup_addAll]
    have hnil : lookupComp [] key = [] := rfl
    rw [hnil]
    simp only [List.not_mem_nil, false_or]
    unfold compInserts
    rw [List.mem_map]
    constructor
    · rintro ⟨j, hj, heq⟩
      rw [List.mem_filter, List.mem_range] at hj
      have h1 : rootOf (buildDSU hashes thr).p j = key := congrArg Prod.fst heq
      have h2 : j = i := congrArg Prod.snd heq
      subst h2
      refine ⟨hj.1, by simpa using hj.2, h1⟩
    · rintro ⟨h1, h2, h3⟩
      refine ⟨i, ?_, ?_⟩
      · rw [List.mem_filter, List.mem_range]
        exact ⟨h1, by simpa using h2⟩
      · rw [h3]
  · rw [hcomps]
    apply compKeys_nodup_addAll
    simp [compKeys]
  · rw [hcomps]
    apply lookup_addAll_nodup
    · intro key
      exact List.nodup_nil
    · intro key i hmem
      simp [lookupComp] at hmem
    · rw [hsnd]
      exact (List.nodup_range hashes.length).filter _

theorem mem_groupsOf (hashes : List Int) (thr : Nat) (g : List Nat) :
    g ∈ groupsOf hashes thr ↔
      ∃ l, l ∈ (collectComps hashes thr).2.map Prod.snd ∧ 1 < l.length ∧
        g = l.insertionSort (fun a b => a ≤ b) := by
  unfold groupsOf
  rw [List.mem_map]
  constructor
  · rintro ⟨l, hl, heq⟩
    rw [List.mem_filter] at hl
    exact ⟨l, hl.1, by simpa using hl.2, heq.symm⟩
  · rintro ⟨l, h1, h2, h3⟩
    exact ⟨l, List.mem_filter.mpr ⟨h1, by simpa using h2⟩, h3.symm⟩

theorem groups_char (hashes : List Int) (thr : Nat) (g : List Nat)
    (hg : g ∈ groupsOf hashes thr) :
    1 < g.length ∧ g.Nodup ∧ ∃ k, ∀ m, m ∈ g ↔
      (m < hashes.length ∧ ¬ hashes.getD m 0 < 0 ∧
        rootOf (buildDSU hashes thr).p m = k) := by
  obtain ⟨l, hl, hlen, heq⟩ := (mem_groupsOf hashes thr g).mp hg
  rw [List.mem_map] at hl
  obtain ⟨pr, hpr, hsnd⟩ := hl
  have HK := comps_char hashes thr
  have hlk : lookupComp (collectComps hashes thr).2 pr.1 = pr.2 :=
    lookup_of_mem_pairs _ HK.2.1 (by rw [Prod.mk.eta]; exact hpr)
  have hperm : (l.insertionSort (fun a b => a ≤ b)).Perm l :=
    List.perm_insertionSort _ l
  refine ⟨?_, ?_, ⟨pr.1, ?_⟩⟩
  · rw [heq, hperm.length_eq]
    exact hlen
  · rw [heq, hperm.nodup_iff, ← hsnd, ← hlk]
    exact HK.2.2 pr.1
  · intro m
    rw [heq, hperm.mem_iff, ← hsnd, ← hlk]
    exact HK.1 pr.1 m

theorem mem_groupsSorted (paths : List String) (hashes : List Int) (thr : Nat)
    (g : List Nat) :
    g ∈ groupsSorted paths hashes thr ↔ g ∈ groupsOf hashes thr := by
  unfold groupsSorted
  exact (List.perm_insertionSort _ _).mem_iff

theorem one_lt_length_of_two_mem {α : Type} {l : List α} {a b : α} (ha : a ∈ l)
    (hb : b ∈ l) (hne : a ≠ b) : 1 < l.length := by
  rcases l with _ | ⟨x, l2⟩
  · simp at ha
  · rcases l2 with _ | ⟨y, l3⟩
    · simp at ha hb
      rw [ha, hb] at hne
      exact absurd rfl hne
    · simp only [List.length_cons]
      omega

theorem charListLe_refl : ∀ as : List Char, charListLe as as = true := by
  intro as
  induction as with
  | nil => rfl
  | cons a as ih => simp [charListLe, lt_irrefl, ih]

theorem charListLe_total : ∀ as bs : List Char,
    charListLe as bs = true ∨ charListLe bs as = true := by
  intro as
  induction as with
  | nil =>
    intro bs
    left
    rfl
  | cons a as ih =>
    intro bs
    rcases bs with _ | ⟨b, bs⟩
    · right
      rfl
    · rcases lt_trichotomy a b with h | h | h
      · left
        simp [charListLe, h]
      · subst h
        rcases ih bs with h2 | h2
        · left
          simp [charListLe, lt_irrefl, h2]
        · right
          simp [charListLe, lt_irrefl, h2]
      · right
        simp [charListLe, h]

theorem charListLe_trans : ∀ as bs cs : List Char,
    charListLe as bs = true → charListLe bs cs = true →
      charListLe as cs = true := by
  intro as
  induction as with
  | nil =>
    intro bs cs h1 h2
    rfl
  | cons a as ih =>
    intro bs cs h1 h2
    rcases bs with _ | ⟨b, bs⟩
    · simp [charListLe] at h1
    · rcases cs with _ | ⟨c, cs⟩
      · simp [charListLe] at h2
      · by_cases hab : a < b
        · by_cases hbc : b < c
          · simp [charListLe, lt_trans hab hbc]
          · by_cases hbc2 : b = c
            · subst hbc2
              simp [charListLe, hab]
            · simp [charListLe, hbc, hbc2] at h2
        · by_cases hab2 : a = b
          · subst hab2
            have h1b : charListLe as bs = true := by
              simpa [charListLe, lt_irrefl] using h1
            by_cases hbc : a < c
            · simp [charListLe, hbc]
            · by_cases hbc2 : a = c
              · subst hbc2
                have h2b : charListLe bs cs = true := by
                  simpa [charListLe, lt_irrefl] using h2
                simp [charListLe, lt_irrefl]
                exact ih bs cs h1b h2b
              · simp [charListLe, hbc, hbc2] at h2
          · simp [charListLe, hab, hab2] at h1

theorem strLe_refl (a : String) : strLe a a = true := charListLe_refl a.data

theorem strLe_total (a b : String) : strLe a b = true ∨ strLe b a = true :=
  charListLe_total a.data b.data

theorem strLe_trans {a b c : String} (h1 : strLe a b = true)
    (h2 : strLe b c = true) : strLe a c = true :=
  charListLe_trans a.data b.data c.data h1 h2

theorem resolveGroup_spec (paths : List String) (g : List Nat) (hne : g ≠ []) :
    ((resolveGroup paths g).keep :: (resolveGroup paths g).dupes
      = (g.map (fun i => paths.getD i "")).insertionSort
          (fun a b => strLe a b = true)) ∧
    ((resolveGroup paths g).keep :: (resolveGroup paths g).dupes).Perm
      (g.map (fun i => paths.getD i "")) ∧
    (∀ q ∈ g.map (fun i => paths.getD i ""),
      strLe (resolveGroup paths g).keep q = true) := by
  have hperm : ((g.map (fun i => paths.getD i "")).insertionSort
      (fun a b => strLe a b = true)).Perm (g.map fun i => paths.getD i "") :=
    List.perm_insertionSort _ _
  have hne2 : (g.map (fun i => paths.getD i "")).insertionSort
      (fun a b => strLe a b = true) ≠ [] := by
    intro he
    have h1 := hperm.length_eq
    rw [he] at h1
    simp at h1
    exact hne (List.eq_nil_of_length_eq_zero h1.symm)
  obtain ⟨h0, t, ht⟩ := List.exists_cons_of_ne_nil hne2
  have hkeep : (resolveGroup paths g).keep
      = ((g.map (fun i => paths.getD i "")).insertionSort
          (fun a b => strLe a b = true)).headD "" := rfl
  have hdup : (resolveGroup paths g).dupes
      = ((g.map (fun i => paths.getD i "")).insertionSort
          (fun a b => strLe a b = true)).tail := rfl
  have hcons : (resolveGroup paths g).keep :: (resolveGroup paths g).dupes
      = (g.map (fun i => paths.getD i "")).insertionSort
          (fun a b => strLe a b = true) := by
    rw [hkeep, hdup, ht]
    rfl
  refine ⟨hcons, by rw [hcons]; exact hperm, ?_⟩
  have hsorted := @List.sorted_insertionSort String
    (fun a b => strLe a b = true) (fun a b => instDecidableEqBool (strLe a b) true)
    ⟨fun a b => strLe_total a b⟩ ⟨fun a b c hab hbc => strLe_trans hab hbc⟩
    (g.map fun i => paths.getD i "")
  rw [ht] at hsorted
  have hhead : (resolveGroup paths g).keep = h0 := by
    rw [hkeep, ht]
    rfl
  intro q hq
  have hq2 : q ∈ h0 :: t := by
    rw [← ht]
    exact hperm.mem_iff.mpr hq
  rcases List.mem_cons.mp hq2 with hq3 | hq3
  · rw [hhead, hq3]
    exact strLe_refl h0
  · rw [hhead]
    exact (List.sorted_cons.mp hsorted).1 q hq3

/-! ### Claims about grouping and resolution -/

/-- C3: an item whose fingerprint extraction failed (negative sentinel)
takes part in no pairwise comparison, appears in no output group, and every
keep or delete-candidate path of every resolved group comes from a valid
member of a group. -/
theorem failed_item_excluded (paths : List String) (hashes : List Int)
    (thr : Nat) (idx : Nat) (hfail : hashes.getD idx 0 < 0) :
    (∀ j, (idx, j) ∉ simPairs hashes thr ∧ (j, idx) ∉ simPairs hashes thr) ∧
    (∀ g ∈ groupsSorted paths hashes thr, idx ∉ g) ∧
    (∀ res ∈ resolvedGroups paths hashes thr, ∀ q,
      (q = res.keep ∨ q ∈ res.dupes) →
      ∃ m g, g ∈ groupsSorted paths hashes thr ∧ m ∈ g ∧
        ¬ hashes.getD m 0 < 0 ∧ q = paths.getD m "") := by
  have hnotin : ∀ g ∈ groupsSorted paths hashes thr, idx ∉ g := by
    intro g hg hmem
    have hg2 := (mem_groupsSorted paths hashes thr g).mp hg
    obtain ⟨hlen2, hnd, k, hk⟩ := groups_char hashes thr g hg2
    exact ((hk idx).mp hmem).2.1 hfail
  refine ⟨?_, hnotin, ?_⟩
  · intro j
    constructor
    · intro hmem
      exact ((mem_simPairs hashes thr idx j).mp hmem).2.2.1 hfail
    · intro hmem
      exact ((mem_simPairs hashes thr j idx).mp hmem).2.2.2.1 hfail
  · intro res hres q hq
    unfold resolvedGroups at hres
    rw [List.mem_map] at hres
    obtain ⟨g, hg, heq⟩ := hres
    have hg2 := (mem_groupsSorted paths hashes thr g).mp hg
    obtain ⟨hlen2, hnd, k, hk⟩ := groups_char hashes thr g hg2
    have hne : g ≠ [] := by
      intro he
      rw [he] at hlen2
      simp at hlen2
    have R := resolveGroup_spec paths g hne
    have hqmem : q ∈ (resolveGroup paths g).keep :: (resolveGroup paths g).dupes := by
      rcases hq with hq | hq
      · rw [← heq] at hq
        rw [hq]
        exact List.mem_cons_self _ _
      · rw [← heq] at hq
        exact List.mem_cons_of_mem _ hq
    have hqmap : q ∈ g.map (fun i => paths.getD i "") := R.2.1.mem_iff.mp hqmem
    rw [List.mem_map] at hqmap
    obtain ⟨m, hm, hmq⟩ := hqmap
    exact ⟨m, g, hg, hm, ((hk m).mp hm).2.1, hmq.symm⟩

theorem failed_item_excluded_witness :
    ((0, 1) ∉ simPairs [-1, 0, 0] 10 ∧ (1, 0) ∉ simPairs [-1, 0, 0] 10) ∧
    (0 : Nat) ∉ ([1, 2] : List Nat) :=
  ⟨(failed_item_excluded ["a", "b", "c"] [-1, 0, 0] 10 0 (by decide)).1 1,
    (failed_item_excluded ["a", "b", "c"] [-1, 0, 0] 10 0 (by decide)).2.1
      [1, 2] (by decide)⟩

/-- C4: every group of the run output has at least two members (singleton
components are discarded); its keep path is the lexicographically smallest
member path, and the keep path together with the delete candidates is
exactly the multiset of member paths. -/
theorem group_resolution (paths : List String) (hashes : List Int) (thr : Nat) :
    ∀ g ∈ groupsSorted paths hashes thr,
      1 < g.length ∧
      (resolveGroup paths g).keep ∈ g.map (fun i => paths.getD i "") ∧
      (∀ q ∈ g.map (fun i => paths.getD i ""),
        strLe (resolveGroup paths g).keep q = true) ∧
      ((resolveGroup paths g).keep :: (resolveGroup paths g).dupes).Perm
        (g.map (fun i => paths.getD i "")) := by
  intro g hg
  have hg2 := (mem_groupsSorted paths hashes thr g).mp hg
  have hchar := groups_char hashes thr g hg2
  have hne : g ≠ [] := by
    intro he
    have := hchar.1
    rw [he] at this
    simp at this
  have R := resolveGroup_spec paths g hne
  exact ⟨hchar.1, R.2.1.mem_iff.mp (List.mem_cons_self _ _), R.2.2, R.2.1⟩

theorem group_resolution_witness :
    1 < ([0, 1] : List Nat).length ∧
    (resolveGroup ["b", "a"] [0, 1]).keep ∈
      ([0, 1].map (fun i => (["b", "a"] : List String).getD i "")) ∧
    ((resolveGroup ["b", "a"] [0, 1]).keep ::
        (resolveGroup ["b", "a"] [0, 1]).dupes).Perm
      ([0, 1].map (fun i => (["b", "a"] : List String).getD i "")) := by
  have H := group_resolution ["b", "a"] ([0, 0] : List Int) 0 [0, 1] (by decide)
  exact ⟨H.1, H.2.1, H.2.2.2⟩

/-- C2: clustering is threshold-monotonic: for thresholds `t ≤ t2`, every
group produced at `t` is contained in the group at `t2` of its first member,
which is itself a group of the `t2` run. -/
theorem threshold_monotone (paths : List String) (hashes : List Int)
    (t t2 : Nat) (h : t ≤ t2) :
    ∀ g ∈ groupsSorted paths hashes t,
      groupAt hashes t2 (g.headD 0) ∈ groupsSorted paths hashes t2 ∧
      ∀ i ∈ g, i ∈ groupAt hashes t2 (g.headD 0) := by
  intro g hg
  have hg2 := (mem_groupsSorted paths hashes t g).mp hg
  obtain ⟨hlen, hnd, k, hk⟩ := groups_char hashes t g hg2
  have hne : g ≠ [] := by
    intro he
    rw [he] at hlen
    simp at hlen
  obtain ⟨h0, grest, hg0⟩ := List.exists_cons_of_ne_nil hne
  have hmem0 : h0 ∈ g := by
    rw [hg0]
    exact List.mem_cons_self _ _
  have hchar0 := (hk h0).mp hmem0
  have HB := buildDSU_spec hashes t
  have HB2 := buildDSU_spec hashes t2
  have hsame_t2 : ∀ i ∈ g, sameSetP (buildDSU hashes t2).p i h0 := by
    intro i hi
    have hchari := (hk i).mp hi
    have hs_t : sameSetP (buildDSU hashes t).p i h0 := by
      unfold sameSetP
      rw [hchari.2.2, hchar0.2.2]
    rw [HB2.2.2]
    refine Relation.EqvGen.mono ?_ ((HB.2.2 i h0).mp hs_t)
    intro u v huv
    rw [mem_simPairs] at huv ⊢
    exact ⟨huv.1, huv.2.1, huv.2.2.1, huv.2.2.2.1, le_trans huv.2.2.2.2 h⟩
  have hhead : g.headD 0 = h0 := by
    rw [hg0]
    rfl
  have HK2 := comps_char hashes t2
  have hmem_lookup : ∀ i ∈ g, i ∈ lookupComp (collectComps hashes t2).2
      (rootOf (buildDSU hashes t2).p h0) := by
    intro i hi
    rw [HK2.1]
    have hchari := (hk i).mp hi
    exact ⟨hchari.1, hchari.2.1, hsame_t2 i hi⟩
  have htwo : ∃ m1 m2, m1 ∈ g ∧ m2 ∈ g ∧ m1 ≠ m2 := by
    rcases grest with _ | ⟨m, grest2⟩
    · rw [hg0] at hlen
      simp at hlen
    · refine ⟨h0, m, hmem0, ?_, ?_⟩
      · rw [hg0]
        exact List.mem_cons_of_mem _ (List.mem_cons_self _ _)
      · rw [hg0] at hnd
        intro he
        have h1 := (List.nodup_cons.mp hnd).1
        rw [he] at h1
        exact h1 (List.mem_cons_self _ _)
  obtain ⟨m1, m2, hm1, hm2, hne12⟩ := htwo
  have hlk_len : 1 < (lookupComp (collectComps hashes t2).2
      (rootOf (buildDSU hashes t2).p h0)).length :=
    one_lt_length_of_two_mem (hmem_lookup m1 hm1) (hmem_lookup m2 hm2) hne12
  have hpair := pairs_mem_of_mem_lookup _ (hmem_lookup h0 hmem0)
  have hgrp : groupAt hashes t2 (g.headD 0) ∈ groupsOf hashes t2 := by
    rw [hhead, mem_groupsOf]
    refine ⟨lookupComp (collectComps hashes t2).2
      (rootOf (buildDSU hashes t2).p h0), ?_, hlk_len, rfl⟩
    rw [List.mem_map]
    exact ⟨_, hpair, rfl⟩
  refine ⟨(mem_groupsSorted paths hashes t2 _).mpr hgrp, ?_⟩
  intro i hi
  rw [hhead]
  unfold groupAt
  rw [(List.perm_insertionSort _ _).mem_iff]
  exact hmem_lookup i hi

theorem threshold_monotone_witness :
    groupAt [0, 0, 7] 3 (([0, 1] : List Nat).headD 0) ∈
      groupsSorted ["a", "b", "c"] [0, 0, 7] 3 ∧
    0 ∈ groupAt [0, 0, 7] 3 (([0, 1] : List Nat).headD 0) := by
  have H := threshold_monotone ["a", "b", "c"] ([0, 0, 7] : List Int) 0 3
    (by decide) [0, 1] (by decide)
  exact ⟨H.1, H.2 0 (by decide)⟩

/-- C8: at threshold 64, whenever at least two items are valid, all valid
items land in one single group (regardless of fingerprint values, provided
fingerprints are 64-bit); at threshold 0, two valid items are in the same
component iff their fingerprints are bit-identical. -/
theorem threshold_extremes (paths : List String) (hashes : List Int)
    (hbound : ∀ h ∈ hashes, h < 2 ^ 64) :
    (2 ≤ (validIdx hashes).length →
      groupsSorted paths hashes 64
        = [(validIdx hashes).insertionSort (fun a b => a ≤ b)]) ∧
    (∀ x y, x < hashes.length → y < hashes.length →
      ¬ hashes.getD x 0 < 0 → ¬ hashes.getD y 0 < 0 →
      (sameSetP (buildDSU hashes 0).p x y ↔
        hashes.getD x 0 = hashes.getD y 0)) := by
  constructor
  · intro h2v
    have HB := buildDSU_spec hashes 64
    have hbound2 : ∀ i, i < hashes.length → ¬ hashes.getD i 0 < 0 →
        (hashes.getD i 0).toNat < 2 ^ 64 := by
      intro i hi hvi
      have hmem : hashes.getD i 0 ∈ hashes := by
        rw [List.getD_eq_getElem _ _ hi]
        exact List.getElem_mem hi
      have := hbound _ hmem
      omega
    have hconn : ∀ i j, i < hashes.length → j < hashes.length →
        ¬ hashes.getD i 0 < 0 → ¬ hashes.getD j 0 < 0 →
        sameSetP (buildDSU hashes 64).p i j := by
      intro i j hi hj hvi hvj
      rw [HB.2.2]
      rcases Nat.lt_trichotomy i j with hlt | heq | hgt
      · refine Relation.EqvGen.rel i j ?_
        rw [mem_simPairs]
        exact ⟨hlt, hj, hvi, hvj,
          (hamming_metric _ _ (hbound2 i hi hvi) (hbound2 j hj hvj)).2.2⟩
      · rw [heq]
        exact Relation.EqvGen.refl j
      · refine Relation.EqvGen.symm _ _ (Relation.EqvGen.rel j i ?_)
        rw [mem_simPairs]
        exact ⟨hgt, hi, hvj, hvi,
          (hamming_metric _ _ (hbound2 j hj hvj) (hbound2 i hi hvi)).2.2⟩
    have hvne : validIdx hashes ≠ [] := by
      intro he
      rw [he] at h2v
      simp at h2v
    obtain ⟨i0, vrest, hv0⟩ := List.exists_cons_of_ne_nil hvne
    have hvmem : ∀ i, i ∈ validIdx hashes ↔
        (i < hashes.length ∧ ¬ hashes.getD i 0 < 0) := by
      intro i
      unfold validIdx
      rw [List.mem_filter, List.mem_range]
      simp
    have hmem_i0 : i0 ∈ validIdx hashes := by
      rw [hv0]
      exact List.mem_cons_self _ _
    have hchar_i0 := (hvmem i0).mp hmem_i0
    have hroots : ∀ i ∈ validIdx hashes,
        rootOf (buildDSU hashes 64).p i = rootOf (buildDSU hashes 64).p i0 := by
      intro i hi
      have hci := (hvmem i).mp hi
      exact hconn i i0 hci.1 hchar_i0.1 hci.2 hchar_i0.2
    have hveq : validIdx hashes
        = (List.range hashes.length).filter
            (fun i => !decide (hashes.getD i 0 < 0)) := rfl
    have hins : compInserts (buildDSU hashes 64).p hashes (List.range hashes.length)
        = (validIdx hashes).map
            (fun i => (rootOf (buildDSU hashes 64).p i0, i)) := by
      unfold compInserts
      rw [← hveq]
      apply List.map_congr_left
      intro i hi
      rw [hroots i hi]
    have HC := collectAux_spec hashes (List.range hashes.length)
      (buildDSU hashes 64) [] HB.1
    have hcomps : (collectComps hashes 64).2
        = [(rootOf (buildDSU hashes 64).p i0, validIdx hashes)] := by
      have h0 : (collectComps hashes 64).2
          = addAll [] (compInserts (buildDSU hashes 64).p hashes
              (List.range hashes.length)) := HC.2.2.2
      rw [h0, hins, hv0]
      have h1 : addAll [] ((i0 :: vrest).map
            (fun i => (rootOf (buildDSU hashes 64).p i0, i)))
          = addAll (addToComp [] (rootOf (buildDSU hashes 64).p i0) i0)
              (vrest.map (fun i => (rootOf (buildDSU hashes 64).p i0, i))) := rfl
      have h2 : addToComp [] (rootOf (buildDSU hashes 64).p i0) i0
          = [(rootOf (buildDSU hashes 64).p i0, [i0])] := rfl
      rw [h1, h2, addAll_const_key]
      simp
    have hgrps : groupsOf hashes 64
        = [(validIdx hashes).insertionSort (fun a b => a ≤ b)] := by
      unfold groupsOf
      rw [hcomps]
      simp only [List.map_cons, List.map_nil]
      rw [List.filter_cons, if_pos (decide_eq_true (by omega : 1 < (validIdx hashes).length))]
      rfl
    unfold groupsSorted
    rw [hgrps]
    exact List.perm_singleton.mp (List.perm_insertionSort _ _)
  · intro x y hx hy hvx hvy
    have HB := buildDSU_spec hashes 0
    rw [HB.2.2 x y]
    constructor
    · intro h
      clear hvx hvy hx hy
      induction h with
      | rel u v huv =>
        have hm := (mem_simPairs hashes 0 u v).mp huv
        have h0 : hamming (hashes.getD u 0).toNat (hashes.getD v 0).toNat = 0 := by
          omega
        have he := (hamming_eq_zero _ _).mp h0
        have hu := hm.2.2.1
        have hv := hm.2.2.2.1
        omega
      | refl u => rfl
      | symm u v _ ih => exact ih.symm
      | trans u v w _ _ ih1 ih2 => exact ih1.trans ih2
    · intro heq
      by_cases hxy : x = y
      · rw [hxy]
        exact Relation.EqvGen.refl y
      · rcases Nat.lt_or_ge x y with hlt | hge
        · refine Relation.EqvGen.rel x y ?_
          rw [mem_simPairs]
          refine ⟨hlt, hy, hvx, hvy, ?_⟩
          rw [heq]
          exact le_of_eq ((hamming_eq_zero _ _).mpr rfl)
        · have hgt : y < x := by omega
          refine Relation.EqvGen.symm _ _ (Relation.EqvGen.rel y x ?_)
          rw [mem_simPairs]
          refine ⟨hgt, hx, hvy, hvx, ?_⟩
          rw [heq]
          exact le_of_eq ((hamming_eq_zero _ _).mpr rfl)

theorem threshold_extremes_witness :
    (groupsSorted ["a", "b", "c"] [0, 1, 5] 64
      = [(validIdx [0, 1, 5]).insertionSort (fun a b => a ≤ b)]) ∧
    (sameSetP (buildDSU [0, 1, 5] 0).p 0 1 ↔
      ([0, 1, 5] : List Int).getD 0 0 = ([0, 1, 5] : List Int).getD 1 0) := by
  have H := threshold_extremes ["a", "b", "c"] ([0, 1, 5] : List Int) (by decide)
  exact ⟨H.1 (by decide), H.2 0 1 (by decide) (by decide) (by decide) (by decide)⟩

theorem ahashBits_lt (pixels : List Nat) : ahashBits pixels < 2 ^ pixels.length := by
  rw [ahashBits_eq_packBits]
  have h := packBits_lt (pixels.map fun v => decide (64 * v > pixels.sum))
  rw [List.length_map] at h
  exact h

/-- C10: the hashing loop yields one hash per input file (index-aligned),
the entry is the sentinel -1 exactly for failed extractions, every
successful aHash value lies in [0, 2^64) (so the sentinel cannot collide
with a valid fingerprint), and the failure list records exactly the failed
files in order. -/
theorem hashLoop_invariants (inputs : List (String × Except String (List Nat)))
    (hlen64 : ∀ pr ∈ inputs, ∀ pix, pr.2 = Except.ok pix → pix.length = 64) :
    (hashLoop inputs).1.length = inputs.length ∧
    (∀ i, i < inputs.length →
      (((hashLoop inputs).1.getD i 0 = -1) ↔
        isFailure (inputs.getD i ("", Except.error "")).2 = true)) ∧
    (∀ i pix, i < inputs.length →
      (inputs.getD i ("", Except.error "")).2 = Except.ok pix →
      0 ≤ (hashLoop inputs).1.getD i 0 ∧ (hashLoop inputs).1.getD i 0 < 2 ^ 64) ∧
    ((hashLoop inputs).2 = inputs.filterMap (fun pr =>
      match pr.2 with
      | Except.ok _ => none
      | Except.error e => some (pr.1, e))) := by
  induction inputs with
  | nil =>
    refine ⟨rfl, ?_, ?_, rfl⟩
    · intro i hi
      simp at hi
    · intro i pix hi
      simp at hi
  | cons hd rest ih =>
    obtain ⟨pa, ex⟩ := hd
    have hlen2 : ∀ pr ∈ rest, ∀ pix, pr.2 = Except.ok pix → pix.length = 64 :=
      fun pr hpr pix hpix => hlen64 pr (List.mem_cons_of_mem _ hpr) pix hpix
    have H := ih hlen2
    cases ex with
    | ok pix =>
      have hpix64 : pix.length = 64 :=
        hlen64 (pa, Except.ok pix) (List.mem_cons_self _ _) pix rfl
      have hh1 : (hashLoop ((pa, Except.ok pix) :: rest)).1
          = (ahashBits pix : Int) :: (hashLoop rest).1 := rfl
      have hh2 : (hashLoop ((pa, Except.ok pix) :: rest)).2
          = (hashLoop rest).2 := rfl
      refine ⟨?_, ?_, ?_, ?_⟩
      · rw [hh1]
        simp [H.1]
      · intro i hi
        rcases i with _ | i
        · rw [hh1]
          simp only [List.getD_cons_zero, isFailure]
          constructor
          · intro hcon
            omega
          · intro hcon
            simp at hcon
        · rw [hh1]
          have hi2 : i < rest.length := by simpa using hi
          have h3 := H.2.1 i hi2
          simpa using h3
      · intro i pix2 hi hok
        rcases i with _ | i
        · rw [hh1]
          have hb := ahashBits_lt pix
          rw [hpix64] at hb
          constructor
          · simp only [List.getD_cons_zero]
            exact Int.natCast_nonneg _
          · simp only [List.getD_cons_zero]
            exact_mod_cast hb
        · rw [hh1]
          have hi2 : i < rest.length := by simpa using hi
          have hok2 : (rest.getD i ("", Except.error "")).2 = Except.ok pix2 := by
            simpa using hok
          have h3 := H.2.2.1 i pix2 hi2 hok2
          simpa using h3
      · rw [hh2, H.2.2.2]
        rfl
    | error e =>
      have hh1 : (hashLoop ((pa, Except.error e) :: rest)).1
          = (-1 : Int) :: (hashLoop rest).1 := rfl
      have hh2 : (hashLoop ((pa, Except.error e) :: rest)).2
          = (pa, e) :: (hashLoop rest).2 := rfl
      refine ⟨?_, ?_, ?_, ?_⟩
      · rw [hh1]
        simp [H.1]
      · intro i hi
        rcases i with _ | i
        · rw [hh1]
          simp [isFailure]
        · rw [hh1]
          have hi2 : i < rest.length := by simpa using hi
          have h3 := H.2.1 i hi2
          simpa using h3
      · intro i pix2 hi hok
        rcases i with _ | i
        · simp at hok
        · rw [hh1]
          have hi2 : i < rest.length := by simpa using hi
          have hok2 : (rest.getD i ("", Except.error "")).2 = Except.ok pix2 := by
            simpa using hok
          have h3 := H.2.2.1 i pix2 hi2 hok2
          simpa using h3
      · rw [hh2, H.2.2.2]
        rfl

theorem hashLoop_invariants_witness :
    (hashLoop [("a", Except.ok (List.replicate 64 0)),
        ("b", Except.error "x")]).1.length = 2 ∧
    ((hashLoop [("a", Except.ok (List.replicate 64 0)),
        ("b", Except.error "x")]).1.getD 1 0 = -1 ↔
      isFailure (([("a", Except.ok (List.replicate 64 0)),
        ("b", Except.error "x")].getD 1 ("", Except.error "")).2) = true) := by
  have H := hashLoop_invariants
    [("a", Except.ok (List.replicate 64 0)), ("b", Except.error "x")]
    (by
      intro pr hpr pix hpix
      rcases List.mem_cons.mp hpr with h | h
      · rw [h] at hpix
        simp at hpix
        rw [← hpix]
        simp
      · rcases List.mem_cons.mp h with h2 | h2
        · rw [h2] at hpix
          simp at hpix
        · simp at h2)
  exact ⟨H.1, H.2.1 1 (by decide)⟩

/-- C7: the effective threshold is the explicit override when given, else
the mode mapping conservative → 5, medium (default) → 10, aggressive → 16;
an effective threshold outside [0, 64] makes the run fail with exit code 2
before any hashing or clustering work (no partial results), and otherwise
the run proceeds with exactly that threshold. -/
theorem threshold_config (inputs : List (String × Except String (List Nat)))
    (override : Option Int) (mode : String) :
    (mode_to_threshold "conservative" = 5 ∧ mode_to_threshold "medium" = 10 ∧
      mode_to_threshold "aggressive" = 16) ∧
    (∀ t : Int, override = some t → override.getD (mode_to_threshold mode) = t) ∧
    (override = none →
      override.getD (mode_to_threshold mode) = mode_to_threshold mode) ∧
    ((override.getD (mode_to_threshold mode) < 0 ∨
        64 < override.getD (mode_to_threshold mode)) →
      mainModel inputs override mode = Except.error 2) ∧
    (¬ (override.getD (mode_to_threshold mode) < 0 ∨
        64 < override.getD (mode_to_threshold mode)) →
      ∃ rep, mainModel inputs override mode = Except.ok rep ∧
        rep.threshold = override.getD (mode_to_threshold mode)) := by
  refine ⟨⟨by decide, by decide, by decide⟩, ?_, ?_, ?_, ?_⟩
  · intro t ht
    rw [ht]
    rfl
  · intro ht
    rw [ht]
    rfl
  · intro hout
    simp only [mainModel]
    rw [if_pos hout]
  · intro hin
    simp only [mainModel]
    rw [if_neg hin]
    exact ⟨_, rfl, rfl⟩

theorem threshold_config_witness :
    (mode_to_threshold "conservative" = 5 ∧ mode_to_threshold "medium" = 10 ∧
      mode_to_threshold "aggressive" = 16) ∧
    mainModel [] (some 99) "medium" = Except.error 2 := by
  have H := threshold_config [] (some 99) "medium"
  exact ⟨H.1, H.2.2.2.1 (by decide)⟩

end NearDup
